import Mathlib

/-!
# tor-scraper: a verification development for `main.go`

A shallow embedding of the string helpers (`normalizeURL`, `readTargets`,
`safeFileNameFromURL`), of the per-target pipeline run by a worker
(`fetchAndSaveHTML` followed by the optional screenshot) and of the worker pool
of `runScanPool`, with the properties of the specification proved about them.

Go strings are byte sequences, so a string is a list of bytes here.  The
functions of the Go standard library the program calls (`strings`, `regexp`,
`crypto/sha1`, `encoding/hex`, `path/filepath`) are modelled by their
documented behaviour on byte strings.
-/

namespace TorScraper

/-! ## Strings -/

/-- A Go string: a sequence of bytes.  Every element of a real Go string is
below 256; the development never needs that bound. -/
abbrev Str := List Nat

/-- The byte string of an ASCII literal. -/
def lit (s : String) : Str := s.toList.map Char.toNat

/-- The UTF-8 encodings of the code points for which Go's `unicode.IsSpace`
holds: tab, LF, VT, FF, CR, space, U+0085, U+00A0, U+1680, U+2000 to U+200A,
U+2028, U+2029, U+202F, U+205F and U+3000. -/
def spaceSeqs : List Str :=
  [[0x09], [0x0A], [0x0B], [0x0C], [0x0D], [0x20],
   [0xC2, 0x85], [0xC2, 0xA0],
   [0xE1, 0x9A, 0x80],
   [0xE2, 0x80, 0x80], [0xE2, 0x80, 0x81], [0xE2, 0x80, 0x82], [0xE2, 0x80, 0x83],
   [0xE2, 0x80, 0x84], [0xE2, 0x80, 0x85], [0xE2, 0x80, 0x86], [0xE2, 0x80, 0x87],
   [0xE2, 0x80, 0x88], [0xE2, 0x80, 0x89], [0xE2, 0x80, 0x8A],
   [0xE2, 0x80, 0xA8], [0xE2, 0x80, 0xA9], [0xE2, 0x80, 0xAF],
   [0xE2, 0x81, 0x9F],
   [0xE3, 0x80, 0x80]]

/-- Remove, at most `fuel` times, a leading member of the table `T`. -/
def stripLeadingN (T : List Str) : Nat → Str → Str
  | 0, s => s
  | fuel + 1, s =>
    match T.find? (fun e => e.isPrefixOf s) with
    | some e => stripLeadingN T fuel (s.drop e.length)
    | none => s

/-- The leading white space of `s` removed (the left half of
`strings.TrimSpace`): the first rune is decoded and dropped as long as it is a
white space rune.  The decoder accepts only the shortest encoding of a code
point and reads an invalid byte as U+FFFD, so the first rune is white space
exactly when `s` starts with a member of `spaceSeqs`. -/
def trimLeftSpace (s : Str) : Str := stripLeadingN spaceSeqs s.length s

/-- The trailing white space of `s` removed (the right half of
`strings.TrimSpace`): the last rune is decoded and dropped as long as it is a
white space rune, which it is exactly when `s` ends with a member of
`spaceSeqs`. -/
def trimRightSpace (s : Str) : Str :=
  (stripLeadingN (spaceSeqs.map List.reverse) s.length s.reverse).reverse

/-- Go's `strings.TrimSpace`. -/
def TrimSpace (s : Str) : Str := trimRightSpace (trimLeftSpace s)

/-- Go's `strings.HasPrefix`. -/
def HasPrefix (s p : Str) : Bool := p.isPrefixOf s

/-- Go's `strings.HasSuffix`. -/
def HasSuffix (s p : Str) : Bool := p.isSuffixOf s

/-- Go's `strings.TrimPrefix`: `s` without the leading `p`, or `s` itself when
it does not start with `p`. -/
def TrimPrefix (s p : Str) : Str := if HasPrefix s p then s.drop p.length else s

/-- Go's `strings.TrimSuffix`: `s` without the trailing `p`, or `s` itself when
it does not end with `p`. -/
def TrimSuffix (s p : Str) : Str :=
  if HasSuffix s p then s.take (s.length - p.length) else s

/-- Go's `strings.ReplaceAll` for a pattern `old` of one byte. -/
def ReplaceAll (s : Str) (old : Nat) (new : Str) : Str :=
  s.flatMap (fun b => if b = old then new else [b])

/-- Go's `strings.Trim` for a cutset of one ASCII byte `c`: the leading and
trailing bytes equal to `c` removed. -/
def Trim (s : Str) (c : Nat) : Str :=
  ((s.dropWhile (fun b => b == c)).reverse.dropWhile (fun b => b == c)).reverse

/-! ## `normalizeURL` and `readTargets` -/

/-- The function `normalizeURL` of `main.go`. -/
def normalizeURL (url : Str) : Str :=
  let url := TrimSpace url
  if !HasPrefix url (lit "http://") && !HasPrefix url (lit "https://") then
    lit "http://" ++ url
  else
    url

/-- The body of the scanning loop of `readTargets` for one line `sc.Text()`:
`none` stands for `continue`, `some line` for `out = append(out, line)`. -/
def readTargetsLine (text : Str) : Option Str :=
  let line := TrimSpace text
  if line = [] then none
  else
    let line := TrimPrefix line (lit "-")
    let line := TrimSpace line
    if line = [] then none
    else some line

/-- The loop `for sc.Scan()` of `readTargets` over the lines `sc.Text()` that
the scanner delivers, in order; the result is the slice `out`. -/
def readTargetsLoop (lines : List Str) : List Str :=
  lines.foldl (fun out text =>
    match readTargetsLine text with
    | some line => out ++ [line]
    | none => out) []

/-- The function `dropCR` of `bufio`: one trailing carriage return removed. -/
def dropCR (data : Str) : Str :=
  if data.getLast? = some 0x0D then data.dropLast else data

/-- The raw lines of a file: the bytes between its newlines, and the bytes
after the last newline when there are any. -/
def splitLines : Str → List Str
  | [] => []
  | b :: rest =>
    if b = 0x0A then [] :: splitLines rest
    else
      match splitLines rest with
      | [] => [[b]]
      | l :: ls => (b :: l) :: ls

/-- Go's `bufio.MaxScanTokenSize`, the size of the buffer of a scanner on which
`sc.Buffer` is not called. -/
def MaxScanTokenSize : Nat := 64 * 1024

/-- The text of Go's `bufio.ErrTooLong`. -/
def ErrTooLong : Str := lit "bufio.Scanner: token too long"

/-- The run of a `bufio.Scanner` with the split function `bufio.ScanLines` over
the raw lines of its input: the tokens `sc.Text()` of the calls of `sc.Scan()`
that return true, and `sc.Err()` after the call that returns false.  A raw line
is delivered, without its trailing carriage return, when it fits with its
newline in the buffer of `MaxScanTokenSize` bytes; at the first raw line that
does not, the scanner stops with `ErrTooLong`.  `readErr` is the error that
ended the reading of the file, `none` at the end of the file. -/
def scanLines (readErr : Option Str) : List Str → List Str × Option Str
  | [] => ([], readErr)
  | raw :: rest =>
    if MaxScanTokenSize ≤ raw.length then ([], some ErrTooLong)
    else (dropCR raw :: (scanLines readErr rest).1, (scanLines readErr rest).2)

/-- What the file system answers during one call of `readTargets`. -/
structure FileEnv where
  /-- The error of `os.Open`. -/
  openErr : Option Str
  /-- The bytes the file delivers to the scanner. -/
  content : Str
  /-- The error that ends the reading of the file, `none` at the end of the
  file. -/
  readErr : Option Str
deriving DecidableEq, Repr

/-- The function `readTargets` of `main.go`: the pair `(out, err)` it returns,
`nil` being the empty slice. -/
def readTargets (env : FileEnv) : List Str × Option Str :=
  match env.openErr with
  | some err => ([], some err)
  | none =>
    let sc := scanLines env.readErr (splitLines env.content)
    (readTargetsLoop sc.1, sc.2)

/-! ## SHA-1 and hexadecimal encoding -/

/-- Rotate the 32-bit word `x` left by `n` bits. -/
def rotl32 (x n : Nat) : Nat := ((x <<< n) ||| (x >>> (32 - n))) % 2 ^ 32

/-- The four bytes of a 32-bit word, most significant first. -/
def be32 (w : Nat) : Str :=
  [(w / 2 ^ 24) % 256, (w / 2 ^ 16) % 256, (w / 2 ^ 8) % 256, w % 256]

/-- The SHA-1 padding of a message: the byte `0x80`, zero bytes up to 56 modulo
64, and the length of the message in bits as a 64-bit big-endian number. -/
def sha1Pad (msg : Str) : Str :=
  msg ++ [0x80] ++ List.replicate ((119 - msg.length % 64) % 64) 0
    ++ be32 ((8 * msg.length) / 2 ^ 32) ++ be32 (8 * msg.length)

/-- The sixteen big-endian 32-bit words of a 64-byte block. -/
def sha1Words : Nat → Str → List Nat
  | 0, _ => []
  | n + 1, bs =>
    ((bs.getD 0 0 * 2 ^ 24 + bs.getD 1 0 * 2 ^ 16 + bs.getD 2 0 * 2 ^ 8 + bs.getD 3 0) % 2 ^ 32)
      :: sha1Words n (bs.drop 4)

/-- The message schedule extended by `n` more words. -/
def sha1Schedule : Nat → List Nat → List Nat
  | 0, w => w
  | n + 1, w =>
    let t := w.length
    sha1Schedule n
      (w ++ [rotl32 (w.getD (t - 3) 0 ^^^ w.getD (t - 8) 0 ^^^ w.getD (t - 14) 0
        ^^^ w.getD (t - 16) 0) 1])

/-- The five chaining words of SHA-1. -/
structure Sha1State where
  a : Nat
  b : Nat
  c : Nat
  d : Nat
  e : Nat

/-- Round `t` of the compression function, with schedule word `wt`. -/
def sha1Round (st : Sha1State) (t wt : Nat) : Sha1State :=
  let nb := st.b ^^^ (2 ^ 32 - 1)
  let fk : Nat × Nat :=
    if t < 20 then ((st.b &&& st.c) ||| (nb &&& st.d), 0x5A827999)
    else if t < 40 then (st.b ^^^ st.c ^^^ st.d, 0x6ED9EBA1)
    else if t < 60 then ((st.b &&& st.c) ||| (st.b &&& st.d) ||| (st.c &&& st.d), 0x8F1BBCDC)
    else (st.b ^^^ st.c ^^^ st.d, 0xCA62C1D6)
  { a := (rotl32 st.a 5 + fk.1 + st.e + fk.2 + wt) % 2 ^ 32
    b := st.a
    c := rotl32 st.b 30
    d := st.c
    e := st.d }

/-- The rounds of one block, from round `t` on, over the remaining schedule. -/
def sha1Rounds (st : Sha1State) (t : Nat) : List Nat → Sha1State
  | [] => st
  | wt :: ws => sha1Rounds (sha1Round st t wt) (t + 1) ws

/-- The compression of one 64-byte block into the chaining value `h`. -/
def sha1Block (h : Sha1State) (block : Str) : Sha1State :=
  let r := sha1Rounds h 0 (sha1Schedule 64 (sha1Words 16 block))
  { a := (h.a + r.a) % 2 ^ 32
    b := (h.b + r.b) % 2 ^ 32
    c := (h.c + r.c) % 2 ^ 32
    d := (h.d + r.d) % 2 ^ 32
    e := (h.e + r.e) % 2 ^ 32 }

/-- The blocks of a padded message compressed in turn, `n` blocks at most. -/
def sha1Blocks : Nat → Sha1State → Str → Sha1State
  | 0, h, _ => h
  | n + 1, h, bs => if bs = [] then h else sha1Blocks n (sha1Block h (bs.take 64)) (bs.drop 64)

/-- Go's `sha1.Sum`: the 20 bytes of the SHA-1 digest of `data`. -/
def sha1Sum (data : Str) : Str :=
  let p := sha1Pad data
  let h := sha1Blocks (p.length / 64 + 1)
    { a := 0x67452301, b := 0xEFCDAB89, c := 0x98BADCFE, d := 0x10325476, e := 0xC3D2E1F0 } p
  be32 h.a ++ be32 h.b ++ be32 h.c ++ be32 h.d ++ be32 h.e

/-- The character `"0123456789abcdef"[d]` of the table of `encoding/hex`. -/
def hexDigit (d : Nat) : Nat := (lit "0123456789abcdef").getD d 0

/-- Go's `hex.EncodeToString`: two lower-case hexadecimal digits per byte. -/
def EncodeToString (src : Str) : Str :=
  src.flatMap (fun v => [hexDigit (v / 16), hexDigit (v % 16)])

/-! ## `safeFileNameFromURL` -/

/-- The class `\w` of Go's `regexp`: ASCII letters, digits and the underscore. -/
def isWordByte (b : Nat) : Bool :=
  (48 ≤ b && b ≤ 57) || (65 ≤ b && b ≤ 90) || (97 ≤ b && b ≤ 122) || b == 95

/-- A byte the class `[^\w\-.]` of `reBad` leaves alone: a word byte, `-` or
`.`.  Every other byte belongs to a rune the class matches: an ASCII byte is
its own rune, and a byte from 0x80 on is part of a multi-byte rune or an
invalid byte, which the matcher reads as U+FFFD. -/
def isSafeByte (b : Nat) : Bool := isWordByte b || b == 45 || b == 46

/-- The scan of `reBad.ReplaceAllString(s, repl)` for `reBad = [^\w\-.]+`:
`inRun` tells that the previous byte was part of a match, whose replacement
was already written. -/
def reBadReplaceAux (repl : Str) : Bool → Str → Str
  | _, [] => []
  | inRun, b :: rest =>
    if isSafeByte b then b :: reBadReplaceAux repl false rest
    else if inRun then reBadReplaceAux repl true rest
    else repl ++ reBadReplaceAux repl true rest

/-- The call `reBad.ReplaceAllString(s, repl)` for a replacement without `$`:
every maximal run of matching runes becomes one `repl`. -/
def reBadReplaceAllString (s repl : Str) : Str := reBadReplaceAux repl false s

/-- The value of `s` in `safeFileNameFromURL` after the trimming and replacing
steps, before the two length tests. -/
def sanitizedName (u : Str) : Str :=
  let s := u
  let s := TrimPrefix s (lit "http://")
  let s := TrimPrefix s (lit "https://")
  let s := TrimSuffix s (lit "/")
  let s := ReplaceAll s 0x2F (lit "_")
  let s := ReplaceAll s 0x3A (lit "_")
  let s := reBadReplaceAllString s (lit "_")
  Trim s 0x5F

/-- The function `safeFileNameFromURL` of `main.go`. -/
def safeFileNameFromURL (u : Str) : Str :=
  let s := sanitizedName u
  let s := if s.length > 80 then
      s.take 60 ++ lit "_" ++ EncodeToString ((sha1Sum u).take 6)
    else s
  let s := if s = [] then EncodeToString ((sha1Sum u).take 8) else s
  s

/-! ## Paths -/

/-- The elements of a path between its separators `/`. -/
def splitSlash : Str → List Str
  | [] => [[]]
  | b :: rest =>
    if b = 0x2F then [] :: splitSlash rest
    else
      match splitSlash rest with
      | [] => [[b]]
      | c :: cs => (b :: c) :: cs

/-- One element of a path pushed on the stack of the elements kept by
`filepath.Clean`: empty elements and `.` are dropped, `..` removes the element
before it, or is dropped at the root, or is kept. -/
def cleanStep (rooted : Bool) (stack : List Str) (c : Str) : List Str :=
  if c = [] ∨ c = lit "." then stack
  else if c = lit ".." then
    match stack with
    | top :: below => if top = lit ".." then c :: stack else below
    | [] => if rooted then [] else [c]
  else c :: stack

/-- Go's `filepath.Clean` on a system whose separator is `/`. -/
def Clean (path : Str) : Str :=
  let rooted : Bool := path.head? = some 0x2F
  let elems := ((splitSlash path).foldl (cleanStep rooted) []).reverse
  let out := (if rooted then lit "/" else []) ++ (lit "/").intercalate elems
  if out = [] then lit "." else out

/-- Go's `filepath.Join` of two elements: from the first non-empty element on,
the elements joined by the separator and cleaned; empty when both are. -/
def Join (a b : Str) : Str :=
  if a ≠ [] then Clean (a ++ lit "/" ++ b)
  else if b ≠ [] then Clean b
  else []

/-! ## The pipeline of one target -/

/-- The fields of `Config` that `runScanPool` reads itself; `ProxyAddr`,
`ScreenshotTimeout` and `ScreenshotWaitMS` are only handed to the browser. -/
structure Config where
  Workers : Nat
  TakeScreenshots : Bool
deriving DecidableEq, Repr

/-- The struct `ScanResult` of `main.go`.  A string field is set when it is not
the empty string (the fields are `omitempty` in the JSON report). -/
structure ScanResult where
  URL : Str
  Normalized : Str
  Active : Bool
  HTTPStatus : Int
  Error : Str
  SavedHTML : Str
  SavedScreenshot : Str
  ScreenshotError : Str
  TimestampUTC : Str
  DurationMS : Int
deriving DecidableEq, Repr

/-- What the outside world answers during one call of `fetchAndSaveHTML`.  A Go
`error` is `none` for `nil` and `some msg` for an error whose `Error()` is
`msg`. -/
structure FetchEnv where
  /-- The error of `http.NewRequest`. -/
  newRequestErr : Option Str
  /-- The error of `client.Do`. -/
  doErr : Option Str
  /-- The field `resp.StatusCode`. -/
  StatusCode : Int
  /-- The error of `io.ReadAll(resp.Body)`. -/
  readAllErr : Option Str
  /-- The string `time.Now().Format("20060102_150405")`. -/
  now : Str
  /-- The error of `os.WriteFile`. -/
  writeFileErr : Option Str
deriving DecidableEq, Repr

/-- Every error of the environment has a message: no error of `net/http`, `io`
or `os` prints as the empty string. -/
def FetchEnv.errorsHaveText (env : FetchEnv) : Prop :=
  env.newRequestErr ≠ some [] ∧ env.doErr ≠ some [] ∧
    env.readAllErr ≠ some [] ∧ env.writeFileErr ≠ some []

instance (env : FetchEnv) : Decidable env.errorsHaveText := by
  unfold FetchEnv.errorsHaveText; infer_instance

/-- The function `fetchAndSaveHTML` of `main.go`: the triple
`(httpStatus, savedHTMLPath, error)`. -/
def fetchAndSaveHTML (env : FetchEnv) (url htmlDir : Str) : Int × Str × Option Str :=
  match env.newRequestErr with
  | some err => (0, [], some err)
  | none =>
    match env.doErr with
    | some err => (0, [], some err)
    | none =>
      let status := env.StatusCode
      if status < 200 ∨ status ≥ 300 then
        (status, [], some (lit "http status " ++ lit (toString status)))
      else
        match env.readAllErr with
        | some err => (status, [], some err)
        | none =>
          let ts := env.now
          let filename := safeFileNameFromURL url ++ lit "_" ++ ts ++ lit ".html"
          let outPath := Join htmlDir filename
          match env.writeFileErr with
          | some err => (status, [], some err)
          | none => (status, outPath, none)

/-- The function `makeScreenshotPath` of `main.go`, `ts` being
`time.Now().Format("20060102_150405")`. -/
def makeScreenshotPath (shotDir url ts : Str) : Str :=
  let name := safeFileNameFromURL url ++ lit "_" ++ ts ++ lit ".png"
  Join shotDir name

/-- What the outside world answers during one iteration of a worker's loop. -/
structure PipelineEnv where
  fetch : FetchEnv
  /-- The time string read by `makeScreenshotPath`. -/
  shotNow : Str
  /-- The error of `captureScreenshotTor`. -/
  captureErr : Option Str
  /-- The string `time.Now().UTC().Format(time.RFC3339)`. -/
  timestampUTC : Str
  /-- The value `dur.Milliseconds()`. -/
  durationMS : Int
deriving DecidableEq, Repr

/-- One iteration of the loop `for j := range jobs` of `workerFn`, for the job
`j.url = url`: the `ScanResult` sent on `resultsCh`.  The lines written to the
log and to the terminal are not part of the model. -/
def workerIteration (cfg : Config) (htmlDir shotDir : Str) (env : PipelineEnv)
    (url : Str) : ScanResult :=
  let normalized := normalizeURL url
  let (status, savedHTML, err) := fetchAndSaveHTML env.fetch normalized htmlDir
  let res : ScanResult :=
    { URL := url
      Normalized := normalized
      Active := err.isNone
      HTTPStatus := status
      Error := []
      SavedHTML := savedHTML
      SavedScreenshot := []
      ScreenshotError := []
      TimestampUTC := env.timestampUTC
      DurationMS := env.durationMS }
  match err with
  | some e => { res with Error := e }
  | none =>
    if cfg.TakeScreenshots then
      let shotPath := makeScreenshotPath shotDir normalized env.shotNow
      match env.captureErr with
      | some e => { res with ScreenshotError := e }
      | none => { res with SavedScreenshot := shotPath }
    else res

/-! ## The worker pool -/

/-- Where a worker goroutine stands in `workerFn`. -/
inductive WorkerState where
  /-- Blocked at `for j := range jobs`. -/
  | waiting
  /-- Has received the job `url` and runs its pipeline. -/
  | working (url : Str)
  /-- At `resultsCh <- res`. -/
  | sending (res : ScanResult)
  /-- Has left the loop; `wg.Done()` has run. -/
  | exited
deriving DecidableEq, Repr

/-- The state of one call of `runScanPool`. -/
structure PoolState where
  /-- The targets the dispatcher goroutine has not sent yet. -/
  todo : List Str
  /-- The dispatcher has run `close(jobs)`. -/
  jobsClosed : Bool
  /-- The `cfg.Workers` worker goroutines. -/
  workers : List WorkerState
  /-- The buffer of `resultsCh`, oldest first. -/
  resultsCh : List ScanResult
  /-- The goroutine of `wg.Wait()` has run `close(resultsCh)`. -/
  resultsClosed : Bool
  /-- The slice `results` of the collecting loop. -/
  results : List ScanResult
  /-- The collecting loop has ended and `runScanPool` has returned `results`. -/
  returned : Bool
deriving DecidableEq, Repr

/-- The atomic steps of the goroutines of `runScanPool`. -/
inductive Action where
  /-- The dispatcher's `jobs <- job{url: t}` meets worker `i` at `range jobs`
  (the channel `jobs` is unbuffered). -/
  | dispatch (i : Nat)
  /-- The dispatcher's `close(jobs)`, after its loop. -/
  | closeJobs
  /-- Worker `i` runs the pipeline of its job, the world answering `env`. -/
  | work (i : Nat) (env : PipelineEnv)
  /-- Worker `i` puts its result in the buffer of `resultsCh`. -/
  | send (i : Nat)
  /-- Worker `i` finds `jobs` closed and leaves its loop. -/
  | exit (i : Nat)
  /-- The `close(resultsCh)` after `wg.Wait()`. -/
  | closeResults
  /-- The collecting loop receives one result and appends it. -/
  | collect
  /-- The collecting loop finds `resultsCh` closed and empty. -/
  | finish

/-- The weight of a worker in the termination measure. -/
def WorkerState.weight : WorkerState → Nat
  | .waiting => 1
  | .working _ => 5
  | .sending _ => 4
  | .exited => 0

/-- The target a worker holds, if any. -/
def WorkerState.held : WorkerState → List Str
  | .working url => [url]
  | .sending res => [res.URL]
  | _ => []

/-- The state in which `runScanPool` starts its goroutines. -/
def initState (cfg : Config) (targets : List Str) : PoolState :=
  { todo := targets
    jobsClosed := false
    workers := List.replicate cfg.Workers .waiting
    resultsCh := []
    resultsClosed := false
    results := []
    returned := false }

/-- One step of `runScanPool`: the state after the action, `none` when the
action cannot run in `s`. -/
def step (cfg : Config) (htmlDir shotDir : Str) (s : PoolState) : Action → Option PoolState
  | .dispatch i =>
    match s.todo, s.workers[i]? with
    | t :: rest, some .waiting =>
      some { s with todo := rest, workers := s.workers.set i (.working t) }
    | _, _ => none
  | .closeJobs =>
    if s.todo = [] ∧ s.jobsClosed = false then some { s with jobsClosed := true } else none
  | .work i env =>
    match s.workers[i]? with
    | some (.working url) =>
      some { s with
        workers := s.workers.set i (.sending (workerIteration cfg htmlDir shotDir env url)) }
    | _ => none
  | .send i =>
    match s.workers[i]? with
    | some (.sending res) =>
      if s.resultsCh.length < cfg.Workers then
        some { s with resultsCh := s.resultsCh ++ [res], workers := s.workers.set i .waiting }
      else none
    | _ => none
  | .exit i =>
    match s.workers[i]? with
    | some .waiting =>
      if s.jobsClosed then some { s with workers := s.workers.set i .exited } else none
    | _ => none
  | .closeResults =>
    if (∀ w ∈ s.workers, w = .exited) ∧ s.resultsClosed = false then
      some { s with resultsClosed := true }
    else none
  | .collect =>
    match s.resultsCh with
    | r :: rest => some { s with resultsCh := rest, results := s.results ++ [r] }
    | [] => none
  | .finish =>
    if s.resultsCh = [] ∧ s.resultsClosed = true ∧ s.returned = false then
      some { s with returned := true }
    else none

/-- The state after a schedule of actions, `none` when one of them cannot run. -/
def runSchedule (cfg : Config) (htmlDir shotDir : Str) :
    PoolState → List Action → Option PoolState
  | s, [] => some s
  | s, a :: rest =>
    match step cfg htmlDir shotDir s a with
    | some s' => runSchedule cfg htmlDir shotDir s' rest
    | none => none

/-- The function `runScanPool` of `main.go` under a schedule of its goroutines:
the slice it returns, `none` when the schedule cannot run or stops before the
function has returned. -/
def runScanPool (cfg : Config) (htmlDir shotDir : Str) (targets : List Str)
    (schedule : List Action) : Option (List ScanResult) :=
  match runSchedule cfg htmlDir shotDir (initState cfg targets) schedule with
  | some s => if s.returned then some s.results else none
  | none => none

/-- The termination measure of the pool: it decreases at every step. -/
def poolMeasure (s : PoolState) : Nat :=
  5 * s.todo.length + (s.workers.map WorkerState.weight).sum + 2 * s.resultsCh.length
    + (if s.jobsClosed then 0 else 1) + (if s.resultsClosed then 0 else 1)
    + (if s.returned then 0 else 1)

/-! ## Predicates and inputs of the statements -/

/-- No member of the table `T` starts `s`. -/
def NoLead (T : List Str) (s : Str) : Prop := ∀ e ∈ T, ¬ e <+: s

/-- The string `s` neither starts nor ends with a white space rune. -/
def Trimmed (s : Str) : Prop := ∀ e ∈ spaceSeqs, ¬ e <+: s ∧ ¬ e <:+ s

/-- The cleaning of a line in the words of the specification: trim the
surrounding white space, remove one leading `-`, trim again. -/
def cleanLine (l : Str) : Str := TrimSpace (TrimPrefix (TrimSpace l) (lit "-"))

/-- The lines of a text: what stands between its newlines, without the carriage
return of a line that ends in one. -/
def textLines (content : Str) : List Str := (splitLines content).map dropCR

/-- A file of four lines, with a list marker, a blank line and a line without
its newline. -/
def smallFile : FileEnv :=
  { openErr := none
    content := lit "- a.onion\r\n\n \t \n  https://b.onion"
    readErr := none }

/-- A file of three lines whose second line has 70000 bytes. -/
def longLineFile : FileEnv :=
  { openErr := none
    content := lit "a.onion" ++ 0x0A :: (List.replicate 70000 0x78 ++ 0x0A :: lit "b.onion\n")
    readErr := none }

/-- Every byte of `s` is an ASCII letter, a digit, `_`, `-` or `.`. -/
def AllSafe (s : Str) : Prop := ∀ b ∈ s, isSafeByte b = true

/-- A URL whose sanitised name has 100 bytes. -/
def longURL : Str := lit "http://" ++ List.replicate 100 97

/-- A name that `safeFileNameFromURL` keeps as it is: not empty, at most 80
bytes, made of ASCII letters, digits, `_`, `-` and `.`, with no `_` at either
end. -/
def PlainName (r : Str) : Prop :=
  r ≠ [] ∧ r.length ≤ 80 ∧ (∀ b ∈ r, isSafeByte b = true) ∧
    r.head? ≠ some 0x5F ∧ r.getLast? ≠ some 0x5F

instance (r : Str) : Decidable (PlainName r) := by
  unfold PlainName; infer_instance

/-- The fetch stage succeeds: a request was built and answered, the status is in
`[200, 300)`, the body was read and the file written. -/
def FetchOK (env : FetchEnv) : Prop :=
  env.newRequestErr = none ∧ env.doErr = none ∧
    200 ≤ env.StatusCode ∧ env.StatusCode < 300 ∧
    env.readAllErr = none ∧ env.writeFileErr = none

instance (env : FetchEnv) : Decidable (FetchOK env) := by
  unfold FetchOK; infer_instance

/-- The name of the body file of `url` written at time `ts`. -/
def htmlFileName (url ts : Str) : Str :=
  safeFileNameFromURL url ++ lit "_" ++ ts ++ lit ".html"

/-- An environment in which the request is answered with status 404. -/
def env404 : PipelineEnv :=
  { fetch :=
      { newRequestErr := none, doErr := none, StatusCode := 404, readAllErr := none,
        now := lit "20250101_120000", writeFileErr := none }
    shotNow := lit "20250101_120001"
    captureErr := none
    timestampUTC := lit "2025-01-01T12:00:01Z"
    durationMS := 1200 }

/-- The number of workers holding the target `a`, counted with multiplicity. -/
def heldCount (a : Str) (ws : List WorkerState) : Nat :=
  (ws.map (fun w => w.held.count a)).sum

/-- The number of places of the pool holding the target `a`: not yet
dispatched, held by a worker, in the buffer of `resultsCh`, or collected. -/
def poolCount (a : Str) (s : PoolState) : Nat :=
  s.todo.count a + heldCount a s.workers + (s.resultsCh.map ScanResult.URL).count a
    + (s.results.map ScanResult.URL).count a

/-- The invariant of the states `runScanPool` reaches. -/
structure PoolInv (cfg : Config) (targets : List Str) (s : PoolState) : Prop where
  count : ∀ a, poolCount a s = targets.count a
  nworkers : s.workers.length = cfg.Workers
  closedTodo : s.jobsClosed = true → s.todo = []
  exitedClosed : WorkerState.exited ∈ s.workers → s.jobsClosed = true
  resClosed : s.resultsClosed = true → ∀ w ∈ s.workers, w = WorkerState.exited
  returned : s.returned = true → s.resultsClosed = true ∧ s.resultsCh = []

/-- An environment, to show that a working worker can always go on. -/
def idleEnv : PipelineEnv :=
  { fetch :=
      { newRequestErr := none, doErr := some (lit "timeout"), StatusCode := 0,
        readAllErr := none, now := [], writeFileErr := none }
    shotNow := []
    captureErr := none
    timestampUTC := []
    durationMS := 0 }

/-- An environment in which the body is fetched and saved and the screenshot
taken. -/
def env200 : PipelineEnv :=
  { fetch :=
      { newRequestErr := none, doErr := none, StatusCode := 200, readAllErr := none,
        now := lit "20250101_120000", writeFileErr := none }
    shotNow := lit "20250101_120002"
    captureErr := none
    timestampUTC := lit "2025-01-01T12:00:02Z"
    durationMS := 2100 }

/-- A schedule of two workers over two targets in which the second target is
finished first. -/
def twoWorkerSchedule : List Action :=
  [Action.dispatch 0, Action.dispatch 1, Action.work 1 env404, Action.send 1,
   Action.work 0 env200, Action.collect, Action.send 0, Action.closeJobs, Action.exit 0,
   Action.exit 1, Action.collect, Action.closeResults, Action.finish]

/-- The string `l` is a sequence of white space runes. -/
def IsSpaces (l : Str) : Prop := ∃ es : List Str, (∀ e ∈ es, e ∈ spaceSeqs) ∧ l = es.flatten

/-! ## Trimming -/

theorem stripLeadingN_suffix (T : List Str) (n : Nat) (s : Str) :
    stripLeadingN T n s <:+ s := by
  induction n generalizing s with
  | zero => exact List.suffix_refl s
  | succ n ih =>
    unfold stripLeadingN
    split
    · exact (ih _).trans (List.drop_suffix _ _)
    · exact List.suffix_refl s

theorem stripLeadingN_of_noLead (T : List Str) (n : Nat) (s : Str) (h : NoLead T s) :
    stripLeadingN T n s = s := by
  cases n with
  | zero => rfl
  | succ n =>
    unfold stripLeadingN
    split
    · next e he =>
      have hm := List.mem_of_find?_eq_some he
      have hp := List.find?_some he
      exact absurd (List.isPrefixOf_iff_prefix.mp hp) (h e hm)
    · rfl

theorem stripLeadingN_noLead (T : List Str) (hT : ∀ e ∈ T, e ≠ []) (n : Nat) (s : Str)
    (hn : s.length ≤ n) : NoLead T (stripLeadingN T n s) := by
  induction n generalizing s with
  | zero =>
    have hs : s = [] := List.length_eq_zero.mp (Nat.le_zero.mp hn)
    subst hs
    intro e he hp
    exact hT e he (List.prefix_nil.mp hp)
  | succ n ih =>
    unfold stripLeadingN
    split
    · next e he =>
      have hm := List.mem_of_find?_eq_some he
      have hp0 := List.find?_some he
      have hp := List.isPrefixOf_iff_prefix.mp hp0
      have hpos : 0 < e.length := List.length_pos.mpr (hT e hm)
      have hle := hp.length_le
      apply ih
      rw [List.length_drop]
      omega
    · next hnone =>
      intro e he hp
      have := List.find?_eq_none.mp hnone e he
      exact this (List.isPrefixOf_iff_prefix.mpr hp)

theorem spaceSeqs_ne_nil : ∀ e ∈ spaceSeqs, e ≠ [] := by decide

theorem revSpaceSeqs_ne_nil : ∀ e ∈ spaceSeqs.map List.reverse, e ≠ [] := by decide

theorem noLead_append (T : List Str) (a b : Str) (c : Nat) (ha : NoLead T a)
    (hc : ∀ e ∈ T, c ∉ e) : NoLead T (a ++ c :: b) := by
  intro e he hp
  rcases List.prefix_or_prefix_of_prefix hp (List.prefix_append a (c :: b)) with h | h
  · exact ha e he h
  · obtain ⟨r, hr⟩ := h
    subst hr
    rw [List.prefix_append_right_inj] at hp
    cases r with
    | nil => exact ha _ he (by simp)
    | cons d r =>
      obtain ⟨q, hq⟩ := hp
      have hd : d = c := by
        have := congrArg List.head? hq
        simpa using this
      subst hd
      exact hc _ he (by simp)

theorem trimLeftSpace_noLead (s : Str) : NoLead spaceSeqs (trimLeftSpace s) :=
  stripLeadingN_noLead spaceSeqs spaceSeqs_ne_nil s.length s (Nat.le_refl _)

theorem trimRightSpace_noTrail (s : Str) :
    NoLead (spaceSeqs.map List.reverse) (trimRightSpace s).reverse := by
  unfold trimRightSpace
  rw [List.reverse_reverse]
  exact stripLeadingN_noLead _ revSpaceSeqs_ne_nil _ _ (by simp)

theorem trimRightSpace_isPrefix (s : Str) : trimRightSpace s <+: s := by
  unfold trimRightSpace
  have := stripLeadingN_suffix (spaceSeqs.map List.reverse) s.length s.reverse
  rw [← List.reverse_prefix, List.reverse_reverse] at this
  exact this

theorem trimSpace_noLead (s : Str) : NoLead spaceSeqs (TrimSpace s) := by
  intro e he hp
  exact trimLeftSpace_noLead s e he (hp.trans (trimRightSpace_isPrefix _))

theorem trimSpace_noTrail (s : Str) :
    NoLead (spaceSeqs.map List.reverse) (TrimSpace s).reverse :=
  trimRightSpace_noTrail _

theorem trimSpace_of_clean (s : Str) (h1 : NoLead spaceSeqs s)
    (h2 : NoLead (spaceSeqs.map List.reverse) s.reverse) : TrimSpace s = s := by
  unfold TrimSpace trimLeftSpace
  rw [stripLeadingN_of_noLead _ _ _ h1]
  unfold trimRightSpace
  rw [stripLeadingN_of_noLead _ _ _ h2, List.reverse_reverse]

theorem trimSpace_idem (s : Str) : TrimSpace (TrimSpace s) = TrimSpace s :=
  trimSpace_of_clean _ (trimSpace_noLead s) (trimSpace_noTrail s)

theorem trimmed_iff (s : Str) :
    Trimmed s ↔ NoLead spaceSeqs s ∧ NoLead (spaceSeqs.map List.reverse) s.reverse := by
  constructor
  · intro h
    refine ⟨fun e he => (h e he).1, ?_⟩
    intro e he hp
    obtain ⟨e0, he0, rfl⟩ := List.mem_map.mp he
    exact (h e0 he0).2 (List.reverse_prefix.mp hp)
  · rintro ⟨h1, h2⟩ e he
    refine ⟨h1 e he, fun hs => ?_⟩
    exact h2 e.reverse (List.mem_map.mpr ⟨e, he, rfl⟩) (List.reverse_prefix.mpr hs)

theorem trimSpace_trimmed (s : Str) : Trimmed (TrimSpace s) :=
  (trimmed_iff _).mpr ⟨trimSpace_noLead s, trimSpace_noTrail s⟩

theorem trimSpace_http_append (t : Str) (ht : Trimmed t) :
    TrimSpace (lit "http://" ++ t) = lit "http://" ++ t := by
  have hlead : NoLead spaceSeqs (lit "http://" ++ t) := by
    have h0 : NoLead spaceSeqs ([] : Str) := fun e he hp =>
      spaceSeqs_ne_nil e he (List.prefix_nil.mp hp)
    have := noLead_append spaceSeqs [] (lit "ttp://" ++ t) 104 h0 (by decide)
    simpa [lit] using this
  have htrail : NoLead (spaceSeqs.map List.reverse) (lit "http://" ++ t).reverse := by
    have := noLead_append (spaceSeqs.map List.reverse) t.reverse (lit "/:ptth") 47
      ((trimmed_iff t).mp ht).2 (by decide)
    simpa [lit] using this
  exact trimSpace_of_clean _ hlead htrail

/-! ## What `strings.TrimSpace` removes -/

theorem stripLeadingN_decomp (T : List Str) (n : Nat) (s : Str) :
    ∃ es : List Str, (∀ e ∈ es, e ∈ T) ∧ s = es.flatten ++ stripLeadingN T n s := by
  induction n generalizing s with
  | zero => exact ⟨[], by simp, rfl⟩
  | succ n ih =>
    unfold stripLeadingN
    split
    · next e he =>
      have hm := List.mem_of_find?_eq_some he
      have hp0 := List.find?_some he
      have hp := List.prefix_iff_eq_append.mp (List.isPrefixOf_iff_prefix.mp hp0)
      obtain ⟨es, hes, heq⟩ := ih (s.drop e.length)
      refine ⟨e :: es, ?_, ?_⟩
      · intro x hx
        rcases List.mem_cons.mp hx with h | h
        · rw [h]; exact hm
        · exact hes x h
      · rw [List.flatten_cons, List.append_assoc, ← heq]
        exact hp.symm
    · exact ⟨[], by simp, rfl⟩

/-- The string `s` is `strings.TrimSpace s` between two runs of white space
runes, and `strings.TrimSpace s` has no white space rune at either end. -/
theorem trimSpace_decomp (s : Str) :
    ∃ lead trail, IsSpaces lead ∧ IsSpaces trail ∧ s = lead ++ TrimSpace s ++ trail := by
  obtain ⟨es1, h1, heq1⟩ := stripLeadingN_decomp spaceSeqs s.length s
  obtain ⟨es2, h2, heq2⟩ := stripLeadingN_decomp (spaceSeqs.map List.reverse)
    (trimLeftSpace s).length (trimLeftSpace s).reverse
  refine ⟨es1.flatten, (es2.map List.reverse).reverse.flatten, ⟨es1, h1, rfl⟩,
    ⟨(es2.map List.reverse).reverse, ?_, rfl⟩, ?_⟩
  · intro e he
    rw [List.mem_reverse, List.mem_map] at he
    obtain ⟨e0, he0, rfl⟩ := he
    obtain ⟨e1, he1, rfl⟩ := List.mem_map.mp (h2 e0 he0)
    rw [List.reverse_reverse]
    exact he1
  · have hl : trimLeftSpace s =
        TrimSpace s ++ (es2.map List.reverse).reverse.flatten := by
      have := congrArg List.reverse heq2
      rw [List.reverse_reverse, List.reverse_append, List.reverse_flatten] at this
      exact this
    rw [List.append_assoc, ← hl]
    exact heq1

theorem spaceSeqs_prefix_free :
    ∀ e1 ∈ spaceSeqs, ∀ e2 ∈ spaceSeqs, e1.isPrefixOf e2 = true → e1 = e2 := by decide

theorem stripLeadingN_flatten (n : Nat) (es : List Str) (hes : ∀ e ∈ es, e ∈ spaceSeqs)
    (hn : es.flatten.length ≤ n) : stripLeadingN spaceSeqs n es.flatten = [] := by
  induction es generalizing n with
  | nil =>
    have h0 : NoLead spaceSeqs ([] : Str) := fun e he hp =>
      spaceSeqs_ne_nil e he (List.prefix_nil.mp hp)
    exact stripLeadingN_of_noLead spaceSeqs n [] h0
  | cons e es ih =>
    have he : e ∈ spaceSeqs := hes e (List.mem_cons_self _ _)
    have hpos : 0 < e.length := List.length_pos.mpr (spaceSeqs_ne_nil e he)
    rw [List.flatten_cons] at hn ⊢
    rw [List.length_append] at hn
    cases n with
    | zero => omega
    | succ n =>
      unfold stripLeadingN
      split
      · next e' he' =>
        have hm := List.mem_of_find?_eq_some he'
        have hp0 := List.find?_some he'
        have hp := List.isPrefixOf_iff_prefix.mp hp0
        have heq : e' = e := by
          rcases List.prefix_or_prefix_of_prefix hp (List.prefix_append e es.flatten) with h | h
          · exact spaceSeqs_prefix_free e' hm e he (List.isPrefixOf_iff_prefix.mpr h)
          · exact (spaceSeqs_prefix_free e he e' hm (List.isPrefixOf_iff_prefix.mpr h)).symm
        rw [heq, List.drop_left]
        exact ih n (fun x hx => hes x (List.mem_cons_of_mem _ hx)) (by omega)
      · next hnone =>
        have := List.find?_eq_none.mp hnone e he
        exact absurd (List.isPrefixOf_iff_prefix.mpr (List.prefix_append e es.flatten)) this

/-- A string of white space runes only is trimmed to the empty string. -/
theorem trimSpace_of_isSpaces (l : Str) (h : IsSpaces l) : TrimSpace l = [] := by
  obtain ⟨es, hes, rfl⟩ := h
  have h1 : trimLeftSpace es.flatten = [] :=
    stripLeadingN_flatten _ es hes (Nat.le_refl _)
  unfold TrimSpace
  rw [h1]
  rfl

/-! ## `normalizeURL` -/

theorem hasPrefix_http_append (t : Str) : HasPrefix (lit "http://" ++ t) (lit "http://") = true := by
  unfold HasPrefix
  rw [List.isPrefixOf_iff_prefix]
  exact List.prefix_append _ _

/-- The result of `normalizeURL` is left unchanged by `strings.TrimSpace` and
starts with `http://` or `https://`. -/
theorem normalizeURL_fixed (x : Str) :
    TrimSpace (normalizeURL x) = normalizeURL x ∧
      (HasPrefix (normalizeURL x) (lit "http://") = true ∨
        HasPrefix (normalizeURL x) (lit "https://") = true) := by
  unfold normalizeURL
  simp only
  by_cases h : (!HasPrefix (TrimSpace x) (lit "http://") &&
      !HasPrefix (TrimSpace x) (lit "https://")) = true
  · rw [if_pos h]
    exact ⟨trimSpace_http_append _ (trimSpace_trimmed x), Or.inl (hasPrefix_http_append _)⟩
  · rw [if_neg h]
    refine ⟨trimSpace_idem x, ?_⟩
    cases h1 : HasPrefix (TrimSpace x) (lit "http://")
    · cases h2 : HasPrefix (TrimSpace x) (lit "https://")
      · simp [h1, h2] at h
      · exact Or.inr rfl
    · exact Or.inl rfl

/-- C2: `normalizeURL` is idempotent, `normalizeURL (normalizeURL x) =
normalizeURL x`, for every string `x` (the empty string included). -/
theorem normalizeURL_idempotent (x : Str) :
    normalizeURL (normalizeURL x) = normalizeURL x := by
  obtain ⟨hfix, hscheme⟩ := normalizeURL_fixed x
  generalize normalizeURL x = y at hfix hscheme
  unfold normalizeURL
  simp only
  rw [hfix]
  rcases hscheme with h | h <;> simp [h]

/-- C3: for every raw target `x`, `normalizeURL x` starts with `http://` or
`https://`; it is the white-space-trimmed `x` when that begins with one of the
two schemes and `http://` followed by the trimmed `x` otherwise, the trimmed
`x` being `x` without the white space runes at its two ends; `example.onion`
becomes `http://example.onion` and `https://a.b` is kept.  The function is
total. -/
theorem normalizeURL_scheme (x : Str) :
    (HasPrefix (normalizeURL x) (lit "http://") = true ∨
        HasPrefix (normalizeURL x) (lit "https://") = true) ∧
      normalizeURL x =
        (if HasPrefix (TrimSpace x) (lit "http://") = true ∨
            HasPrefix (TrimSpace x) (lit "https://") = true
          then TrimSpace x else lit "http://" ++ TrimSpace x) ∧
      (∃ lead trail, IsSpaces lead ∧ IsSpaces trail ∧ x = lead ++ TrimSpace x ++ trail) ∧
      Trimmed (TrimSpace x) ∧
      normalizeURL (lit "example.onion") = lit "http://example.onion" ∧
      normalizeURL (lit "https://a.b") = lit "https://a.b" := by
  refine ⟨(normalizeURL_fixed x).2, ?_, trimSpace_decomp x, trimSpace_trimmed x,
    by decide, by decide⟩
  unfold normalizeURL
  simp only
  cases h1 : HasPrefix (TrimSpace x) (lit "http://") <;>
    cases h2 : HasPrefix (TrimSpace x) (lit "https://") <;> simp

/-! ## `readTargets` -/

theorem readTargetsLine_eq (l : Str) :
    readTargetsLine l = if cleanLine l = [] then none else some (cleanLine l) := by
  unfold readTargetsLine cleanLine
  simp only
  by_cases h : TrimSpace l = []
  · rw [if_pos h, h]
    have : TrimSpace (TrimPrefix [] (lit "-")) = [] := by decide
    rw [if_pos this]
  · rw [if_neg h]

theorem readTargets_foldl (lines : List Str) (acc : List Str) :
    lines.foldl (fun out text =>
        match readTargetsLine text with
        | some line => out ++ [line]
        | none => out) acc
      = acc ++ (lines.map cleanLine).filter (fun c => decide (c ≠ [])) := by
  induction lines generalizing acc with
  | nil => simp
  | cons l ls ih =>
    rw [List.foldl_cons, ih, readTargetsLine_eq]
    by_cases h : cleanLine l = []
    · simp [h]
    · simp [h]

theorem readTargetsLoop_eq (lines : List Str) :
    readTargetsLoop lines = (lines.map cleanLine).filter (fun c => decide (c ≠ [])) := by
  unfold readTargetsLoop
  rw [readTargets_foldl]
  rfl

theorem readTargetsLoop_mem (lines : List Str) :
    ∀ t ∈ readTargetsLoop lines, t ≠ [] ∧ Trimmed t := by
  intro t ht
  rw [readTargetsLoop_eq, List.mem_filter, List.mem_map] at ht
  obtain ⟨⟨l, _, rfl⟩, hne⟩ := ht
  exact ⟨by simpa using hne, trimSpace_trimmed _⟩

theorem splitLines_append_newline (l rest : Str) (hl : 0x0A ∉ l) :
    splitLines (l ++ 0x0A :: rest) = l :: splitLines rest := by
  induction l with
  | nil => simp [splitLines]
  | cons b l ih =>
    have hb : b ≠ 0x0A := fun h => hl (by rw [h]; exact List.mem_cons_self _ _)
    have hl' : 0x0A ∉ l := fun h => hl (List.mem_cons_of_mem _ h)
    rw [List.cons_append, splitLines, if_neg hb, ih hl']

/-- The scanner delivers the raw lines before the first one of
`MaxScanTokenSize` bytes or more. -/
theorem scanLines_fst (readErr : Option Str) (raws : List Str) :
    (scanLines readErr raws).1 =
      (raws.takeWhile (fun raw => decide (raw.length < MaxScanTokenSize))).map dropCR := by
  induction raws with
  | nil => rfl
  | cons raw rest ih =>
    unfold scanLines
    by_cases h : MaxScanTokenSize ≤ raw.length
    · rw [if_pos h, List.takeWhile_cons]
      have : decide (raw.length < MaxScanTokenSize) = false := by
        rw [decide_eq_false_iff_not]; omega
      rw [this]
      rfl
    · rw [if_neg h, List.takeWhile_cons]
      have : decide (raw.length < MaxScanTokenSize) = true := by
        rw [decide_eq_true_iff]; omega
      rw [this, ih]
      simp

/-- The scanner ends with the error of the reader when every raw line is
shorter than `MaxScanTokenSize`, and with `ErrTooLong` otherwise. -/
theorem scanLines_snd (readErr : Option Str) (raws : List Str) :
    (scanLines readErr raws).2 =
      if ∀ raw ∈ raws, raw.length < MaxScanTokenSize then readErr else some ErrTooLong := by
  induction raws with
  | nil => simp [scanLines]
  | cons raw rest ih =>
    unfold scanLines
    by_cases h : MaxScanTokenSize ≤ raw.length
    · rw [if_pos h, if_neg]
      intro hall
      have := hall raw (List.mem_cons_self _ _)
      omega
    · rw [if_neg h]
      simp only
      rw [ih]
      by_cases hall : ∀ r ∈ rest, r.length < MaxScanTokenSize
      · rw [if_pos hall, if_pos]
        intro r hr
        rcases List.mem_cons.mp hr with h1 | h1
        · rw [h1]; omega
        · exact hall r h1
      · rw [if_neg hall, if_neg]
        intro hall'
        exact hall (fun r hr => hall' r (List.mem_cons_of_mem _ hr))

theorem takeWhile_of_all (p : Str → Bool) (raws : List Str) (h : ∀ raw ∈ raws, p raw = true) :
    raws.takeWhile p = raws := by
  induction raws with
  | nil => rfl
  | cons raw rest ih =>
    rw [List.takeWhile_cons, h raw (List.mem_cons_self _ _),
      ih (fun r hr => h r (List.mem_cons_of_mem _ hr))]
    simp

theorem takeWhile_stop (p : Str → Bool) (pre : List Str) (long : Str) (post : List Str)
    (hpre : ∀ raw ∈ pre, p raw = true) (hlong : p long = false) :
    (pre ++ long :: post).takeWhile p = pre := by
  induction pre with
  | nil =>
    rw [List.nil_append, List.takeWhile_cons, hlong]
    simp
  | cons raw rest ih =>
    rw [List.cons_append, List.takeWhile_cons, hpre raw (List.mem_cons_self _ _),
      ih (fun r hr => hpre r (List.mem_cons_of_mem _ hr))]
    simp

/-- What `readTargets` returns when the file opens: the cleaned, non-empty
lines before the first raw line of `MaxScanTokenSize` bytes or more, with the
error of the scanner. -/
theorem readTargets_open (env : FileEnv) (hopen : env.openErr = none) :
    readTargets env =
      (((((splitLines env.content).takeWhile
              (fun raw => decide (raw.length < MaxScanTokenSize))).map dropCR).map
            cleanLine).filter (fun c => decide (c ≠ [])),
        if ∀ raw ∈ splitLines env.content, raw.length < MaxScanTokenSize then env.readErr
        else some ErrTooLong) := by
  unfold readTargets
  rw [hopen]
  simp only
  rw [readTargetsLoop_eq, scanLines_fst, scanLines_snd]

/-- What `readTargets` returns for a file with a raw line `long` of
`MaxScanTokenSize` bytes or more after shorter lines `pre`. -/
theorem readTargets_of_long (env : FileEnv) (pre : List Str) (long : Str) (post : List Str)
    (hopen : env.openErr = none) (hsplit : splitLines env.content = pre ++ long :: post)
    (hpre : ∀ raw ∈ pre, raw.length < MaxScanTokenSize)
    (hlong : MaxScanTokenSize ≤ long.length) :
    readTargets env =
      (((pre.map dropCR).map cleanLine).filter (fun c => decide (c ≠ [])),
        some ErrTooLong) := by
  rw [readTargets_open env hopen, hsplit,
    takeWhile_stop _ pre long post (fun r hr => decide_eq_true (hpre r hr))
      (decide_eq_false (by omega)),
    if_neg]
  intro hall
  have := hall long (List.mem_append_right _ (List.mem_cons_self _ _))
  omega

theorem longLineFile_lines :
    splitLines longLineFile.content =
      [lit "a.onion"] ++ List.replicate 70000 0x78 :: [lit "b.onion"] := by
  have h1 : (0x0A : Nat) ∉ lit "a.onion" := by decide
  have h2 : (0x0A : Nat) ∉ List.replicate 70000 0x78 := by
    intro h
    have := List.eq_of_mem_replicate h
    omega
  have h3 : splitLines (lit "b.onion\n") = [lit "b.onion"] := by decide
  show splitLines (lit "a.onion" ++ 0x0A :: (List.replicate 70000 0x78 ++ 0x0A ::
    lit "b.onion\n")) = _
  rw [splitLines_append_newline _ _ h1, splitLines_append_newline _ _ h2, h3]
  rfl

/-- C9, the claim refuted: in `longLineFile` the second line has 70000 bytes;
`readTargets` returns the target of the first line only, with the error
`ErrTooLong`, while `b.onion` is a line of the file, is its own cleaning and is
not returned. -/
theorem readTargets_long_line :
    readTargets longLineFile = ([lit "a.onion"], some ErrTooLong) ∧
      lit "b.onion" ∈ textLines longLineFile.content ∧
      cleanLine (lit "b.onion") = lit "b.onion" ∧
      lit "b.onion" ∉ (readTargets longLineFile).1 := by
  have hrun : readTargets longLineFile = ([lit "a.onion"], some ErrTooLong) := by
    have hlen : MaxScanTokenSize ≤ (List.replicate 70000 0x78 : Str).length := by
      rw [List.length_replicate]; decide
    rw [readTargets_of_long longLineFile [lit "a.onion"] (List.replicate 70000 0x78)
      [lit "b.onion"] rfl longLineFile_lines (by decide) hlen]
    decide
  refine ⟨hrun, ?_, by decide, ?_⟩
  · unfold textLines
    rw [longLineFile_lines]
    exact List.mem_map.mpr ⟨lit "b.onion",
      List.mem_append_right _ (List.mem_cons_of_mem _ (List.mem_singleton.mpr rfl)),
      by decide⟩
  · rw [hrun]
    decide

/-- C9 as amended: when the file cannot be opened `readTargets` returns no
target and the error of `os.Open`.  When it opens and every line is shorter
than `MaxScanTokenSize` (64 KiB), `readTargets` returns, in input order,
`cleanLine l` for exactly the lines `l` of the file whose `cleanLine l` is not
empty, with the error that ended the reading, `nil` at the end of the file.
When a line has `MaxScanTokenSize` bytes or more, it returns that for the lines
before the first such line, with the error `ErrTooLong`.  A line of white space
only gives no target, and every returned target is non-empty and has no white
space at either end. -/
theorem readTargets_returns (env : FileEnv) :
    (∀ err, env.openErr = some err → readTargets env = ([], some err)) ∧
      (env.openErr = none →
        (∀ raw ∈ splitLines env.content, raw.length < MaxScanTokenSize) →
          readTargets env =
            (((textLines env.content).map cleanLine).filter (fun c => decide (c ≠ [])),
              env.readErr)) ∧
      (env.openErr = none →
        ∀ pre long post, splitLines env.content = pre ++ long :: post →
          (∀ raw ∈ pre, raw.length < MaxScanTokenSize) → MaxScanTokenSize ≤ long.length →
            readTargets env =
              (((pre.map dropCR).map cleanLine).filter (fun c => decide (c ≠ [])),
                some ErrTooLong)) ∧
      (∀ l, IsSpaces l → cleanLine l = []) ∧
      (∀ t ∈ (readTargets env).1, t ≠ [] ∧ Trimmed t) := by
  refine ⟨?_, ?_, ?_, ?_, ?_⟩
  · intro err herr
    unfold readTargets
    rw [herr]
  · intro hopen hshort
    rw [readTargets_open env hopen, if_pos hshort,
      takeWhile_of_all _ _ (fun r hr => decide_eq_true (hshort r hr))]
    rfl
  · intro hopen pre long post hsplit hpre hlong
    exact readTargets_of_long env pre long post hopen hsplit hpre hlong
  · intro l hl
    unfold cleanLine
    rw [trimSpace_of_isSpaces l hl]
    decide
  · intro t ht
    cases hopen : env.openErr with
    | some err =>
      unfold readTargets at ht
      rw [hopen] at ht
      simp at ht
    | none =>
      unfold readTargets at ht
      rw [hopen] at ht
      exact readTargetsLoop_mem _ t ht

/-- C9 as amended, at `smallFile`: the file opens, its lines are short, and
`readTargets` returns `a.onion` and `https://b.onion` with no error. -/
theorem readTargets_returns_witness :
    smallFile.openErr = none ∧
      (∀ raw ∈ splitLines smallFile.content, raw.length < MaxScanTokenSize) ∧
      readTargets smallFile =
        (((textLines smallFile.content).map cleanLine).filter (fun c => decide (c ≠ [])),
          smallFile.readErr) ∧
      readTargets smallFile = ([lit "a.onion", lit "https://b.onion"], none) :=
  ⟨rfl, by decide, (readTargets_returns smallFile).2.1 rfl (by decide), by decide⟩

/-! ## `safeFileNameFromURL` -/

theorem isSafeByte_iff (b : Nat) :
    isSafeByte b = true ↔
      (48 ≤ b ∧ b ≤ 57) ∨ (65 ≤ b ∧ b ≤ 90) ∨ (97 ≤ b ∧ b ≤ 122) ∨ b = 95 ∨ b = 45 ∨ b = 46 := by
  simp [isSafeByte, isWordByte, or_assoc]

theorem reBadReplaceAux_safe (inRun : Bool) (s : Str) :
    AllSafe (reBadReplaceAux (lit "_") inRun s) := by
  induction s generalizing inRun with
  | nil => intro b hb; simp [reBadReplaceAux] at hb
  | cons c rest ih =>
    unfold reBadReplaceAux
    by_cases hc : isSafeByte c = true
    · rw [if_pos hc]
      intro b hb
      rcases List.mem_cons.mp hb with h | h
      · rw [h]; exact hc
      · exact ih false b h
    · rw [if_neg hc]
      cases inRun with
      | true => simpa using ih true
      | false =>
        intro b hb
        simp only [Bool.false_eq_true, if_false] at hb
        rcases List.mem_append.mp hb with h | h
        · have : b = 95 := by simpa [lit] using h
          rw [this]; decide
        · exact ih true b h

theorem mem_of_mem_trim (s : Str) (c b : Nat) (h : b ∈ Trim s c) : b ∈ s := by
  unfold Trim at h
  rw [List.mem_reverse] at h
  have h1 := (List.dropWhile_suffix (fun b => b == c)).subset h
  rw [List.mem_reverse] at h1
  exact (List.dropWhile_suffix (fun b => b == c)).subset h1

theorem sanitizedName_safe (u : Str) : AllSafe (sanitizedName u) := by
  intro b hb
  unfold sanitizedName at hb
  exact reBadReplaceAux_safe false _ b (mem_of_mem_trim _ _ _ hb)

theorem sha1Sum_length (u : Str) : (sha1Sum u).length = 20 := by
  simp [sha1Sum, be32]

theorem sha1Sum_byte (u : Str) : ∀ b ∈ sha1Sum u, b < 256 := by
  intro b hb
  simp only [sha1Sum, be32, List.mem_append, List.mem_cons, List.mem_singleton,
    List.not_mem_nil, or_false] at hb
  have h256 : ∀ n : Nat, n % 256 < 256 := fun n => Nat.mod_lt _ (by decide)
  rcases hb with ((((h | h | h | h) | (h | h | h | h)) | (h | h | h | h)) | (h | h | h | h)) |
    (h | h | h | h) <;> (rw [h]; exact h256 _)

/-- The padded message is a whole number of 64-byte blocks. -/
theorem sha1Pad_length (msg : Str) : (sha1Pad msg).length % 64 = 0 := by
  simp only [sha1Pad, be32, List.length_append, List.length_cons, List.length_nil,
    List.length_replicate]
  omega

/-- Fuel for one block per 64 bytes is enough for `sha1Blocks`: more fuel gives
the same chaining value. -/
theorem sha1Blocks_fuel (n m : Nat) (h : Sha1State) (bs : Str) (hlen : bs.length ≤ 64 * n)
    (hm : n ≤ m) : sha1Blocks m h bs = sha1Blocks n h bs := by
  induction n generalizing m h bs with
  | zero =>
    have hbs : bs = [] := List.length_eq_zero.mp (by omega)
    subst hbs
    cases m with
    | zero => rfl
    | succ m => simp [sha1Blocks]
  | succ n ih =>
    cases m with
    | zero => omega
    | succ m =>
      unfold sha1Blocks
      by_cases hbs : bs = []
      · rw [if_pos hbs, if_pos hbs]
      · rw [if_neg hbs, if_neg hbs]
        apply ih
        · rw [List.length_drop]; omega
        · omega

/-- The fuel `sha1Sum` gives to `sha1Blocks` covers the whole padded message. -/
theorem sha1Sum_fuel (data : Str) (h : Sha1State) (k : Nat) :
    sha1Blocks ((sha1Pad data).length / 64 + 1 + k) h (sha1Pad data) =
      sha1Blocks ((sha1Pad data).length / 64 + 1) h (sha1Pad data) := by
  apply sha1Blocks_fuel
  · omega
  · omega

set_option maxRecDepth 1000000 in
/-- The model of SHA-1 gives the digests of the empty message and of `abc`
that FIPS 180 lists. -/
theorem sha1Sum_vectors :
    EncodeToString (sha1Sum []) = lit "da39a3ee5e6b4b0d3255bfef95601890afd80709" ∧
      EncodeToString (sha1Sum (lit "abc")) = lit "a9993e364706816aba3e25717850c26c9cd0d89d" := by
  constructor <;> decide

theorem hexDigit_safe : ∀ d, d < 16 → isSafeByte (hexDigit d) = true := by decide

theorem encodeToString_length (src : Str) : (EncodeToString src).length = 2 * src.length := by
  induction src with
  | nil => rfl
  | cons v rest ih =>
    have : EncodeToString (v :: rest) =
        hexDigit (v / 16) :: hexDigit (v % 16) :: EncodeToString rest := by
      simp [EncodeToString]
    rw [this, List.length_cons, List.length_cons, ih, List.length_cons]
    omega

theorem encodeToString_take (n : Nat) (src : Str) :
    EncodeToString (src.take n) = (EncodeToString src).take (2 * n) := by
  induction n generalizing src with
  | zero => simp [EncodeToString]
  | succ n ih =>
    cases src with
    | nil => simp [EncodeToString]
    | cons v rest =>
      have h1 : EncodeToString (v :: rest) =
          hexDigit (v / 16) :: hexDigit (v % 16) :: EncodeToString rest := by
        simp [EncodeToString]
      have h2 : EncodeToString (v :: rest.take n) =
          hexDigit (v / 16) :: hexDigit (v % 16) :: EncodeToString (rest.take n) := by
        simp [EncodeToString]
      rw [List.take_succ_cons, h2, h1, ih, show 2 * (n + 1) = (2 * n + 1) + 1 by omega,
        List.take_succ_cons, List.take_succ_cons]

theorem encodeToString_safe (src : Str) (h : ∀ b ∈ src, b < 256) :
    AllSafe (EncodeToString src) := by
  intro b hb
  unfold EncodeToString at hb
  rw [List.mem_flatMap] at hb
  obtain ⟨v, hv, hb⟩ := hb
  have hv256 := h v hv
  rcases List.mem_cons.mp hb with h1 | h1
  · rw [h1]; exact hexDigit_safe _ (by omega)
  · rw [List.mem_singleton.mp h1]; exact hexDigit_safe _ (Nat.mod_lt _ (by decide))

theorem sha1_take_byte (u : Str) (n : Nat) : ∀ b ∈ (sha1Sum u).take n, b < 256 :=
  fun b hb => sha1Sum_byte u b (List.mem_of_mem_take hb)

theorem hash6_length (u : Str) : (EncodeToString ((sha1Sum u).take 6)).length = 12 := by
  rw [encodeToString_length, List.length_take, sha1Sum_length]
  rfl

theorem hash8_length (u : Str) : (EncodeToString ((sha1Sum u).take 8)).length = 16 := by
  rw [encodeToString_length, List.length_take, sha1Sum_length]
  rfl

theorem safeFileNameFromURL_long (u : Str) (h : 80 < (sanitizedName u).length) :
    safeFileNameFromURL u =
      (sanitizedName u).take 60 ++ lit "_" ++ EncodeToString ((sha1Sum u).take 6) := by
  unfold safeFileNameFromURL
  simp only
  rw [if_pos h, if_neg]
  simp [lit]

theorem safeFileNameFromURL_short (u : Str) (h : ¬ 80 < (sanitizedName u).length) :
    safeFileNameFromURL u =
      if sanitizedName u = [] then EncodeToString ((sha1Sum u).take 8) else sanitizedName u := by
  unfold safeFileNameFromURL
  simp only
  rw [if_neg h]

theorem safeFileNameFromURL_length_long (u : Str) (h : 80 < (sanitizedName u).length) :
    (safeFileNameFromURL u).length = 73 := by
  rw [safeFileNameFromURL_long u h, List.length_append, List.length_append, hash6_length,
    List.length_take]
  have : (lit "_").length = 1 := rfl
  omega

/-- C4: for every URL `u` the name `safeFileNameFromURL u` has at most 80
bytes; when the sanitised name has more than 80 bytes the result is its first
60 bytes, then `_`, then the first 12 hexadecimal digits of the SHA-1 of `u`,
73 bytes in all; the name depends on `u` alone. -/
theorem safeFileNameFromURL_bounded (u : Str) :
    (safeFileNameFromURL u).length ≤ 80 ∧
      (80 < (sanitizedName u).length →
        safeFileNameFromURL u =
            (sanitizedName u).take 60 ++ lit "_" ++ (EncodeToString (sha1Sum u)).take 12 ∧
          ((sanitizedName u).take 60).length = 60 ∧
          ((EncodeToString (sha1Sum u)).take 12).length = 12 ∧
          (safeFileNameFromURL u).length = 73) ∧
      (∀ v, v = u → safeFileNameFromURL v = safeFileNameFromURL u) := by
  refine ⟨?_, ?_, fun v hv => by rw [hv]⟩
  · by_cases h : 80 < (sanitizedName u).length
    · rw [safeFileNameFromURL_length_long u h]; decide
    · rw [safeFileNameFromURL_short u h]
      split
      · rw [hash8_length]; decide
      · omega
  · intro h
    have h12 : (EncodeToString (sha1Sum u)).take 12 = EncodeToString ((sha1Sum u).take 6) :=
      (encodeToString_take 6 (sha1Sum u)).symm
    refine ⟨?_, ?_, ?_, safeFileNameFromURL_length_long u h⟩
    · rw [h12]; exact safeFileNameFromURL_long u h
    · rw [List.length_take]; omega
    · rw [h12]; exact hash6_length u

/-- C4 at `longURL`: the sanitised name is longer than 80 bytes and the file
name has 73 bytes. -/
theorem safeFileNameFromURL_bounded_witness :
    80 < (sanitizedName longURL).length ∧ (safeFileNameFromURL longURL).length = 73 :=
  ⟨by decide, ((safeFileNameFromURL_bounded longURL).2.1 (by decide)).2.2.2⟩

set_option maxRecDepth 1000000 in
/-- The names of a URL with a long path, of a URL without a host and of a URL
with a port and a query, as `safeFileNameFromURL` computes them. -/
theorem safeFileNameFromURL_examples :
    safeFileNameFromURL longURL = List.replicate 60 97 ++ lit "_6e1687dcead2" ∧
      safeFileNameFromURL (lit "http://") = lit "43a9519ed4b5e9c7" ∧
      safeFileNameFromURL (lit "https://abc.onion:8080/a/b?c=d") = lit "abc.onion_8080_a_b_c_d" := by
  refine ⟨?_, ?_, ?_⟩ <;> decide

/-- C10: for every string `u`, `safeFileNameFromURL u` is not empty and each of
its bytes is an ASCII letter, a digit, `_`, `-` or `.`; so none is `/`, `\`
or `:`. -/
theorem safeFileNameFromURL_safe (u : Str) :
    safeFileNameFromURL u ≠ [] ∧
      ∀ b ∈ safeFileNameFromURL u,
        ((48 ≤ b ∧ b ≤ 57) ∨ (65 ≤ b ∧ b ≤ 90) ∨ (97 ≤ b ∧ b ≤ 122) ∨ b = 95 ∨ b = 45 ∨ b = 46) ∧
          b ≠ 0x2F ∧ b ≠ 0x5C ∧ b ≠ 0x3A := by
  have hsafe : AllSafe (safeFileNameFromURL u) := by
    by_cases h : 80 < (sanitizedName u).length
    · rw [safeFileNameFromURL_long u h]
      intro b hb
      rcases List.mem_append.mp hb with hb | hb
      · rcases List.mem_append.mp hb with hb | hb
        · exact sanitizedName_safe u b (List.mem_of_mem_take hb)
        · have : b = 95 := by simpa [lit] using hb
          rw [this]; decide
      · exact encodeToString_safe _ (sha1_take_byte u 6) b hb
    · rw [safeFileNameFromURL_short u h]
      split
      · exact encodeToString_safe _ (sha1_take_byte u 8)
      · exact sanitizedName_safe u
  have hne : safeFileNameFromURL u ≠ [] := by
    by_cases h : 80 < (sanitizedName u).length
    · intro h0
      have := safeFileNameFromURL_length_long u h
      rw [h0] at this
      simp at this
    · rw [safeFileNameFromURL_short u h]
      split
      · intro h0
        have := hash8_length u
        rw [h0] at this
        simp at this
      · assumption
  refine ⟨hne, fun b hb => ?_⟩
  have h := (isSafeByte_iff b).mp (hsafe b hb)
  refine ⟨h, ?_, ?_, ?_⟩ <;> omega

/-! ## File names of distinct URLs -/

theorem trimPrefix_append (p r : Str) : TrimPrefix (p ++ r) p = r := by
  unfold TrimPrefix HasPrefix
  rw [if_pos (List.isPrefixOf_iff_prefix.mpr (List.prefix_append p r)), List.drop_left]

theorem trimPrefix_of_not_mem (p s : Str) (c : Nat) (hc : c ∈ p) (hs : c ∉ s) :
    TrimPrefix s p = s := by
  unfold TrimPrefix HasPrefix
  rw [if_neg]
  intro h
  exact hs ((List.isPrefixOf_iff_prefix.mp h).subset hc)

theorem trimSuffix_of_not_mem (p s : Str) (c : Nat) (hc : c ∈ p) (hs : c ∉ s) :
    TrimSuffix s p = s := by
  unfold TrimSuffix HasSuffix
  rw [if_neg]
  intro h
  exact hs ((List.isSuffixOf_iff_suffix.mp h).subset hc)

theorem replaceAll_of_not_mem (s : Str) (c : Nat) (new : Str) (hs : c ∉ s) :
    ReplaceAll s c new = s := by
  unfold ReplaceAll
  induction s with
  | nil => rfl
  | cons b rest ih =>
    have hb : b ≠ c := fun h => hs (by rw [h]; exact List.mem_cons_self _ _)
    have hrest : c ∉ rest := fun h => hs (List.mem_cons_of_mem _ h)
    rw [List.flatMap_cons, if_neg hb, ih hrest]
    rfl

theorem reBadReplaceAux_of_safe (repl s : Str) (hs : ∀ b ∈ s, isSafeByte b = true) :
    reBadReplaceAux repl false s = s := by
  induction s with
  | nil => rfl
  | cons b rest ih =>
    unfold reBadReplaceAux
    rw [if_pos (hs b (List.mem_cons_self _ _)), ih (fun x hx => hs x (List.mem_cons_of_mem _ hx))]

theorem dropWhile_of_head (s : Str) (c : Nat) (h : s.head? ≠ some c) :
    s.dropWhile (fun b => b == c) = s := by
  cases s with
  | nil => rfl
  | cons b rest =>
    have hb : (b == c) = false := by
      rw [beq_eq_false_iff_ne]
      exact fun hbc => h (by rw [hbc]; rfl)
    rw [List.dropWhile_cons, hb]
    rfl

theorem trim_of_ends (s : Str) (c : Nat) (h1 : s.head? ≠ some c) (h2 : s.getLast? ≠ some c) :
    Trim s c = s := by
  unfold Trim
  rw [dropWhile_of_head s c h1, dropWhile_of_head s.reverse c (by rwa [List.head?_reverse]),
    List.reverse_reverse]

theorem not_mem_of_safe (r : Str) (c : Nat) (hr : ∀ b ∈ r, isSafeByte b = true)
    (hc : isSafeByte c = false) : c ∉ r := by
  intro h
  have := hr c h
  rw [hc] at this
  exact Bool.noConfusion this

theorem sanitizedName_plain (scheme r : Str)
    (hs : scheme = lit "http://" ∨ scheme = lit "https://") (hr : PlainName r) :
    sanitizedName (scheme ++ r) = r := by
  obtain ⟨_, _, hsafe, hhead, hlast⟩ := hr
  have hcolon : 0x3A ∉ r := not_mem_of_safe r _ hsafe (by decide)
  have hslash : 0x2F ∉ r := not_mem_of_safe r _ hsafe (by decide)
  have hpre : TrimPrefix (TrimPrefix (scheme ++ r) (lit "http://")) (lit "https://") = r := by
    rcases hs with h | h
    · rw [h, trimPrefix_append]
      exact trimPrefix_of_not_mem _ _ 0x3A (by decide) hcolon
    · rw [h]
      have h0 : TrimPrefix (lit "https://" ++ r) (lit "http://") = lit "https://" ++ r := by
        unfold TrimPrefix HasPrefix
        rw [if_neg]
        simp [lit, List.isPrefixOf]
      rw [h0, trimPrefix_append]
  unfold sanitizedName
  simp only
  rw [hpre, trimSuffix_of_not_mem _ _ 0x2F (by decide) hslash,
    replaceAll_of_not_mem _ _ _ hslash, replaceAll_of_not_mem _ _ _ hcolon]
  unfold reBadReplaceAllString
  rw [reBadReplaceAux_of_safe _ _ hsafe]
  exact trim_of_ends r _ hhead hlast

theorem safeFileNameFromURL_plain (scheme r : Str)
    (hs : scheme = lit "http://" ∨ scheme = lit "https://") (hr : PlainName r) :
    safeFileNameFromURL (scheme ++ r) = r := by
  have h := sanitizedName_plain scheme r hs hr
  rw [safeFileNameFromURL_short _ (by rw [h]; have := hr.2.1; omega), h, if_neg hr.1]

theorem normalizeURL_plain (scheme r : Str)
    (hs : scheme = lit "http://" ∨ scheme = lit "https://") (hr : PlainName r) :
    normalizeURL (scheme ++ r) = scheme ++ r := by
  obtain ⟨hne, _, hsafe, _, _⟩ := hr
  have hlead : NoLead spaceSeqs (scheme ++ r) := by
    have h0 : NoLead spaceSeqs ([] : Str) := fun e he hp =>
      spaceSeqs_ne_nil e he (List.prefix_nil.mp hp)
    rcases hs with h | h
    · have := noLead_append spaceSeqs [] (lit "ttp://" ++ r) 104 h0 (by decide)
      rw [h]
      simpa [lit] using this
    · have := noLead_append spaceSeqs [] (lit "ttps://" ++ r) 104 h0 (by decide)
      rw [h]
      simpa [lit] using this
  have htrail : NoLead (spaceSeqs.map List.reverse) (scheme ++ r).reverse := by
    have h0 : NoLead (spaceSeqs.map List.reverse) ([] : Str) := fun e he hp =>
      revSpaceSeqs_ne_nil e he (List.prefix_nil.mp hp)
    have hunsafe : ∀ e ∈ spaceSeqs.map List.reverse, ∀ b ∈ e, isSafeByte b = false := by decide
    cases hrev : r.reverse with
    | nil => exact absurd (List.reverse_eq_nil_iff.mp hrev) hne
    | cons c rest =>
      have hc : isSafeByte c = true :=
        hsafe c (by rw [← List.mem_reverse, hrev]; exact List.mem_cons_self _ _)
      have := noLead_append (spaceSeqs.map List.reverse) [] (rest ++ scheme.reverse) c h0
        (fun e he hce => by
          have := hunsafe e he c hce
          rw [hc] at this
          exact Bool.noConfusion this)
      rw [List.reverse_append, hrev]
      simpa using this
  have htrim := trimSpace_of_clean _ hlead htrail
  unfold normalizeURL
  simp only
  rw [htrim]
  have hp : HasPrefix (scheme ++ r) (lit "http://") = true ∨
      HasPrefix (scheme ++ r) (lit "https://") = true := by
    rcases hs with h | h
    · left; rw [h]; exact hasPrefix_http_append r
    · right; rw [h]; unfold HasPrefix
      exact List.isPrefixOf_iff_prefix.mpr (List.prefix_append _ _)
  rcases hp with h | h <;> simp [h]

/-- C8, the claim refuted: `http://a.onion` and `https://a.onion` are two
distinct normalized URLs, and for the same time stamp their body files have the
same name, as have their screenshot files. -/
theorem fileName_collision :
    lit "http://a.onion" ≠ lit "https://a.onion" ∧
      normalizeURL (lit "http://a.onion") = lit "http://a.onion" ∧
      normalizeURL (lit "https://a.onion") = lit "https://a.onion" ∧
      safeFileNameFromURL (lit "http://a.onion") ++ lit "_" ++ lit "20250101_120000" ++ lit ".html"
        = safeFileNameFromURL (lit "https://a.onion") ++ lit "_" ++ lit "20250101_120000"
          ++ lit ".html" ∧
      safeFileNameFromURL (lit "http://a.onion") ++ lit "_" ++ lit "20250101_120000" ++ lit ".png"
        = safeFileNameFromURL (lit "https://a.onion") ++ lit "_" ++ lit "20250101_120000"
          ++ lit ".png" := by
  decide

/-- C8 as amended: two distinct URLs with the same scheme, `http://` or
`https://`, followed by a plain name each (not empty, at most 80 bytes, of
ASCII letters, digits, `_`, `-`, `.`, no `_` at either end) are normalized
URLs, and for every time stamp their body file names differ and their
screenshot file names differ. -/
theorem fileName_distinct (scheme r1 r2 ts : Str)
    (hs : scheme = lit "http://" ∨ scheme = lit "https://")
    (h1 : PlainName r1) (h2 : PlainName r2) (hne : scheme ++ r1 ≠ scheme ++ r2) :
    normalizeURL (scheme ++ r1) = scheme ++ r1 ∧
      normalizeURL (scheme ++ r2) = scheme ++ r2 ∧
      safeFileNameFromURL (scheme ++ r1) ++ lit "_" ++ ts ++ lit ".html"
        ≠ safeFileNameFromURL (scheme ++ r2) ++ lit "_" ++ ts ++ lit ".html" ∧
      safeFileNameFromURL (scheme ++ r1) ++ lit "_" ++ ts ++ lit ".png"
        ≠ safeFileNameFromURL (scheme ++ r2) ++ lit "_" ++ ts ++ lit ".png" := by
  have hr : r1 ≠ r2 := fun h => hne (by rw [h])
  refine ⟨normalizeURL_plain scheme r1 hs h1, normalizeURL_plain scheme r2 hs h2, ?_, ?_⟩
  · rw [safeFileNameFromURL_plain scheme r1 hs h1, safeFileNameFromURL_plain scheme r2 hs h2]
    intro h
    rw [List.append_assoc, List.append_assoc, List.append_assoc, List.append_assoc] at h
    exact hr (List.append_cancel_right h)
  · rw [safeFileNameFromURL_plain scheme r1 hs h1, safeFileNameFromURL_plain scheme r2 hs h2]
    intro h
    rw [List.append_assoc, List.append_assoc, List.append_assoc, List.append_assoc] at h
    exact hr (List.append_cancel_right h)

/-- C8 as amended, at `http://a.onion` and `http://b.onion`. -/
theorem fileName_distinct_witness :
    safeFileNameFromURL (lit "http://" ++ lit "a.onion") ++ lit "_" ++ lit "20250101_120000"
        ++ lit ".html"
      ≠ safeFileNameFromURL (lit "http://" ++ lit "b.onion") ++ lit "_" ++ lit "20250101_120000"
        ++ lit ".html" :=
  (fileName_distinct (lit "http://") (lit "a.onion") (lit "b.onion") (lit "20250101_120000")
    (Or.inl rfl) (by decide) (by decide) (by decide)).2.2.1

/-! ## The result of one pipeline -/

theorem orDot_ne_nil (out : Str) : (if out = [] then lit "." else out) ≠ [] := by
  split
  · decide
  · assumption

theorem clean_ne_nil (path : Str) : Clean path ≠ [] := by
  unfold Clean
  exact orDot_ne_nil _

theorem join_ne_nil (a b : Str) (hb : b ≠ []) : Join a b ≠ [] := by
  unfold Join
  by_cases ha : a ≠ []
  · rw [if_pos ha]; exact clean_ne_nil _
  · rw [if_neg ha, if_pos hb]; exact clean_ne_nil _

theorem htmlFileName_ne_nil (url ts : Str) : htmlFileName url ts ≠ [] := by
  unfold htmlFileName
  intro h
  have := congrArg List.length h
  simp [lit] at this

theorem fetch_ok (env : FetchEnv) (url htmlDir : Str) (h : FetchOK env) :
    fetchAndSaveHTML env url htmlDir =
      (env.StatusCode, Join htmlDir (htmlFileName url env.now), none) := by
  obtain ⟨h1, h2, h3, h4, h5, h6⟩ := h
  unfold fetchAndSaveHTML htmlFileName
  rw [h1, h2, h5, h6]
  simp only
  rw [if_neg (by omega)]

theorem fetch_err (env : FetchEnv) (url htmlDir : Str) (h : ¬ FetchOK env) :
    ∃ st e, fetchAndSaveHTML env url htmlDir = (st, [], some e) ∧
      (env.errorsHaveText → e ≠ []) := by
  unfold fetchAndSaveHTML
  cases h1 : env.newRequestErr with
  | some e => exact ⟨0, e, rfl, fun ht he => ht.1 (by rw [h1, he])⟩
  | none =>
    cases h2 : env.doErr with
    | some e => exact ⟨0, e, rfl, fun ht he => ht.2.1 (by rw [h2, he])⟩
    | none =>
      simp only
      by_cases hst : env.StatusCode < 200 ∨ env.StatusCode ≥ 300
      · rw [if_pos hst]
        refine ⟨_, _, rfl, fun _ he => ?_⟩
        have := congrArg List.length he
        simp [lit] at this
      · rw [if_neg hst]
        cases h5 : env.readAllErr with
        | some e => exact ⟨_, e, rfl, fun ht he => ht.2.2.1 (by rw [h5, he])⟩
        | none =>
          cases h6 : env.writeFileErr with
          | some e => exact ⟨_, e, rfl, fun ht he => ht.2.2.2 (by rw [h6, he])⟩
          | none =>
            exfalso
            exact h ⟨h1, h2, by omega, by omega, h5, h6⟩

theorem workerIteration_err (cfg : Config) (htmlDir shotDir : Str) (env : PipelineEnv)
    (url : Str) (st : Int) (e : Str)
    (h : fetchAndSaveHTML env.fetch (normalizeURL url) htmlDir = (st, [], some e)) :
    workerIteration cfg htmlDir shotDir env url =
      { URL := url, Normalized := normalizeURL url, Active := false, HTTPStatus := st,
        Error := e, SavedHTML := [], SavedScreenshot := [], ScreenshotError := [],
        TimestampUTC := env.timestampUTC, DurationMS := env.durationMS } := by
  unfold workerIteration
  simp only [h]
  rfl

theorem workerIteration_ok (cfg : Config) (htmlDir shotDir : Str) (env : PipelineEnv)
    (url : Str) (st : Int) (saved : Str)
    (h : fetchAndSaveHTML env.fetch (normalizeURL url) htmlDir = (st, saved, none)) :
    workerIteration cfg htmlDir shotDir env url =
      { URL := url, Normalized := normalizeURL url, Active := true, HTTPStatus := st,
        Error := [], SavedHTML := saved,
        SavedScreenshot :=
          if cfg.TakeScreenshots = true ∧ env.captureErr = none then
            makeScreenshotPath shotDir (normalizeURL url) env.shotNow
          else [],
        ScreenshotError :=
          if cfg.TakeScreenshots = true then env.captureErr.getD [] else [],
        TimestampUTC := env.timestampUTC, DurationMS := env.durationMS } := by
  unfold workerIteration
  simp only [h]
  cases hc : cfg.TakeScreenshots <;> cases he : env.captureErr <;> simp

/-- C5: the `ScanResult` of a worker has `Active = true` exactly when the fetch
stage built and sent its request, got a status in `[200, 300)`, read the body
and wrote it to its file, whose path is then `SavedHTML`; a failure of the
transport, a status outside `[200, 300)` and a failure to read or to write the
body all give `Active = false`. -/
theorem workerIteration_active (cfg : Config) (htmlDir shotDir : Str) (env : PipelineEnv)
    (url : Str) :
    ((workerIteration cfg htmlDir shotDir env url).Active = true ↔
        (env.fetch.newRequestErr = none ∧ env.fetch.doErr = none ∧
          200 ≤ env.fetch.StatusCode ∧ env.fetch.StatusCode < 300 ∧
          env.fetch.readAllErr = none ∧ env.fetch.writeFileErr = none)) ∧
      ((workerIteration cfg htmlDir shotDir env url).Active = true →
        (workerIteration cfg htmlDir shotDir env url).SavedHTML =
          Join htmlDir (htmlFileName (normalizeURL url) env.fetch.now)) ∧
      ((env.fetch.newRequestErr ≠ none ∨ env.fetch.doErr ≠ none ∨
          env.fetch.StatusCode < 200 ∨ 300 ≤ env.fetch.StatusCode ∨
          env.fetch.readAllErr ≠ none ∨ env.fetch.writeFileErr ≠ none) →
        (workerIteration cfg htmlDir shotDir env url).Active = false) := by
  by_cases hok : FetchOK env.fetch
  · have h := workerIteration_ok cfg htmlDir shotDir env url _ _
      (fetch_ok env.fetch (normalizeURL url) htmlDir hok)
    rw [h]
    refine ⟨⟨fun _ => hok, fun _ => rfl⟩, fun _ => rfl, fun hbad => ?_⟩
    obtain ⟨h1, h2, h3, h4, h5, h6⟩ := hok
    rcases hbad with hb | hb | hb | hb | hb | hb
    · exact absurd h1 hb
    · exact absurd h2 hb
    · omega
    · omega
    · exact absurd h5 hb
    · exact absurd h6 hb
  · obtain ⟨st, e, hf, _⟩ := fetch_err env.fetch (normalizeURL url) htmlDir hok
    rw [workerIteration_err cfg htmlDir shotDir env url st e hf]
    refine ⟨⟨fun h => Bool.noConfusion h, fun h => absurd h hok⟩,
      fun h => Bool.noConfusion h, fun _ => rfl⟩

/-- C6: when the errors of the environment have a message, the `ScanResult` of
a worker has exactly one of `Error` and `SavedHTML` set; `Error` is set exactly
when `Active = false` and `SavedHTML` exactly when `Active = true`. -/
theorem workerIteration_error_xor_saved (cfg : Config) (htmlDir shotDir : Str)
    (env : PipelineEnv) (url : Str) (hText : env.fetch.errorsHaveText) :
    (((workerIteration cfg htmlDir shotDir env url).Error ≠ [] ∧
          (workerIteration cfg htmlDir shotDir env url).SavedHTML = []) ∨
        ((workerIteration cfg htmlDir shotDir env url).Error = [] ∧
          (workerIteration cfg htmlDir shotDir env url).SavedHTML ≠ [])) ∧
      ((workerIteration cfg htmlDir shotDir env url).Error ≠ [] ↔
        (workerIteration cfg htmlDir shotDir env url).Active = false) ∧
      ((workerIteration cfg htmlDir shotDir env url).SavedHTML ≠ [] ↔
        (workerIteration cfg htmlDir shotDir env url).Active = true) := by
  by_cases hok : FetchOK env.fetch
  · rw [workerIteration_ok cfg htmlDir shotDir env url _ _
      (fetch_ok env.fetch (normalizeURL url) htmlDir hok)]
    have hj := join_ne_nil htmlDir _ (htmlFileName_ne_nil (normalizeURL url) env.fetch.now)
    exact ⟨Or.inr ⟨rfl, hj⟩, ⟨fun h => absurd rfl h, fun h => Bool.noConfusion h⟩,
      ⟨fun _ => rfl, fun _ => hj⟩⟩
  · obtain ⟨st, e, hf, he⟩ := fetch_err env.fetch (normalizeURL url) htmlDir hok
    rw [workerIteration_err cfg htmlDir shotDir env url st e hf]
    exact ⟨Or.inl ⟨he hText, rfl⟩, ⟨fun _ => rfl, fun _ => he hText⟩,
      ⟨fun h => absurd rfl h, fun h => Bool.noConfusion h⟩⟩

/-- C6 at the target `a.onion` answered with status 404: `Error` is set,
`SavedHTML` is not. -/
theorem workerIteration_error_xor_saved_witness :
    env404.fetch.errorsHaveText ∧
      (workerIteration ⟨2, true⟩ (lit "out/html") (lit "out/screenshots") env404
          (lit "a.onion")).Error ≠ [] ∧
      (workerIteration ⟨2, true⟩ (lit "out/html") (lit "out/screenshots") env404
          (lit "a.onion")).Active = false :=
  ⟨by decide,
    ((workerIteration_error_xor_saved ⟨2, true⟩ (lit "out/html") (lit "out/screenshots") env404
      (lit "a.onion") (by decide)).2.1).mpr (by decide),
    by decide⟩

/-- C7: in the `ScanResult` of a worker `SavedScreenshot` and `ScreenshotError`
are never both set; one of them set implies `Active = true` and screenshots
enabled; when the fetch failed both are absent, and when it succeeded with
screenshots disabled both are absent and `Active = true`. -/
theorem workerIteration_screenshot (cfg : Config) (htmlDir shotDir : Str)
    (env : PipelineEnv) (url : Str) :
    ¬ ((workerIteration cfg htmlDir shotDir env url).SavedScreenshot ≠ [] ∧
        (workerIteration cfg htmlDir shotDir env url).ScreenshotError ≠ []) ∧
      (((workerIteration cfg htmlDir shotDir env url).SavedScreenshot ≠ [] ∨
          (workerIteration cfg htmlDir shotDir env url).ScreenshotError ≠ []) →
        (workerIteration cfg htmlDir shotDir env url).Active = true ∧
          cfg.TakeScreenshots = true) ∧
      ((fetchAndSaveHTML env.fetch (normalizeURL url) htmlDir).2.2 ≠ none →
        (workerIteration cfg htmlDir shotDir env url).SavedScreenshot = [] ∧
          (workerIteration cfg htmlDir shotDir env url).ScreenshotError = []) ∧
      ((fetchAndSaveHTML env.fetch (normalizeURL url) htmlDir).2.2 = none ∧
          cfg.TakeScreenshots = false →
        (workerIteration cfg htmlDir shotDir env url).SavedScreenshot = [] ∧
          (workerIteration cfg htmlDir shotDir env url).ScreenshotError = [] ∧
          (workerIteration cfg htmlDir shotDir env url).Active = true) := by
  by_cases hok : FetchOK env.fetch
  · have hf := fetch_ok env.fetch (normalizeURL url) htmlDir hok
    rw [workerIteration_ok cfg htmlDir shotDir env url _ _ hf, hf]
    cases hc : cfg.TakeScreenshots <;> cases he : env.captureErr <;> simp
  · obtain ⟨st, e, hf, _⟩ := fetch_err env.fetch (normalizeURL url) htmlDir hok
    rw [workerIteration_err cfg htmlDir shotDir env url st e hf, hf]
    simp

/-! ## The worker pool: invariant -/

theorem sum_map_set (f : WorkerState → Nat) (ws : List WorkerState) (i : Nat)
    (w w' : WorkerState) (h : ws[i]? = some w) :
    ((ws.set i w').map f).sum + f w = (ws.map f).sum + f w' := by
  induction ws generalizing i with
  | nil => simp at h
  | cons x xs ih =>
    cases i with
    | zero =>
      simp only [List.getElem?_cons_zero, Option.some.injEq] at h
      subst h
      simp only [List.set_cons_zero, List.map_cons, List.sum_cons]
      omega
    | succ i =>
      simp only [List.getElem?_cons_succ] at h
      have := ih i h
      simp only [List.set_cons_succ, List.map_cons, List.sum_cons]
      omega

theorem initState_inv (cfg : Config) (targets : List Str) :
    PoolInv cfg targets (initState cfg targets) where
  count := by
    intro a
    have : heldCount a (List.replicate cfg.Workers WorkerState.waiting) = 0 := by
      unfold heldCount
      apply List.sum_eq_zero
      intro x hx
      rw [List.map_replicate] at hx
      exact (List.eq_of_mem_replicate hx)
    simp [poolCount, initState, this]
  nworkers := by simp [initState]
  closedTodo := by simp [initState]
  exitedClosed := by
    intro h
    have := List.eq_of_mem_replicate h
    exact WorkerState.noConfusion this
  resClosed := by simp [initState]
  returned := by simp [initState]

/-- A step that moves worker `i` from a state `w` other than `exited` to a
state `w'` other than `exited` keeps the parts of the invariant about the
closing of the channels. -/
theorem set_worker_inv (ws : List WorkerState) (i : Nat) (w w' : WorkerState)
    (hw : ws[i]? = some w) (hne : w ≠ WorkerState.exited) (hne' : w' ≠ WorkerState.exited)
    (jc rc : Bool)
    (h1 : WorkerState.exited ∈ ws → jc = true)
    (h2 : rc = true → ∀ x ∈ ws, x = WorkerState.exited) :
    (WorkerState.exited ∈ ws.set i w' → jc = true) ∧
      (rc = true → ∀ x ∈ ws.set i w', x = WorkerState.exited) := by
  constructor
  · intro hm
    rcases List.mem_or_eq_of_mem_set hm with h | h
    · exact h1 h
    · exact absurd h.symm hne'
  · intro hrc
    exact absurd (h2 hrc w (List.getElem?_mem hw)) hne

theorem step_inv (cfg : Config) (htmlDir shotDir : Str) (targets : List Str)
    (s s' : PoolState) (a : Action) (hinv : PoolInv cfg targets s)
    (h : step cfg htmlDir shotDir s a = some s') : PoolInv cfg targets s' := by
  obtain ⟨hcount, hn, hct, hec, hrc, hret⟩ := hinv
  cases a with
  | dispatch i =>
    simp only [step] at h
    split at h
    · next t rest htodo hw =>
      simp only [Option.some.injEq] at h
      subst h
      obtain ⟨k1, k2⟩ := set_worker_inv s.workers i _ (WorkerState.working t) hw
        (by simp) (by simp) s.jobsClosed s.resultsClosed hec hrc
      refine ⟨fun a => ?_, by simpa using hn, ?_, k1, k2, hret⟩
      · have hs := sum_map_set (fun w => w.held.count a) s.workers i _
          (WorkerState.working t) hw
        have hc := hcount a
        simp only [poolCount, heldCount, htodo, List.count_cons, WorkerState.held,
          List.count_nil] at hs hc ⊢
        omega
      · intro hj
        have := hct hj
        rw [htodo] at this
        exact absurd this (by simp)
    · simp at h
  | closeJobs =>
    simp only [step] at h
    split at h
    · next hc =>
      simp only [Option.some.injEq] at h
      subst h
      exact ⟨hcount, hn, fun _ => hc.1, fun _ => rfl, hrc, hret⟩
    · simp at h
  | work i env =>
    simp only [step] at h
    split at h
    · next url hw =>
      simp only [Option.some.injEq] at h
      subst h
      obtain ⟨k1, k2⟩ := set_worker_inv s.workers i _
        (WorkerState.sending (workerIteration cfg htmlDir shotDir env url)) hw
        (by simp) (by simp) s.jobsClosed s.resultsClosed hec hrc
      refine ⟨fun a => ?_, by simpa using hn, hct, k1, k2, hret⟩
      have hs := sum_map_set (fun w => w.held.count a) s.workers i _
        (WorkerState.sending (workerIteration cfg htmlDir shotDir env url)) hw
      have hc := hcount a
      have hurl : (workerIteration cfg htmlDir shotDir env url).URL = url := by
        unfold workerIteration
        simp only
        split <;> (try split) <;> (try split) <;> rfl
      simp only [poolCount, heldCount, WorkerState.held, hurl] at hs hc ⊢
      omega
    · simp at h
  | send i =>
    simp only [step] at h
    split at h
    · next res hw =>
      split at h
      · simp only [Option.some.injEq] at h
        subst h
        obtain ⟨k1, k2⟩ := set_worker_inv s.workers i _ WorkerState.waiting hw
          (by simp) (by simp) s.jobsClosed s.resultsClosed hec hrc
        refine ⟨fun a => ?_, by simpa using hn, hct, k1, k2, ?_⟩
        · have hs := sum_map_set (fun w => w.held.count a) s.workers i _
            WorkerState.waiting hw
          have hc := hcount a
          simp only [poolCount, heldCount, WorkerState.held, List.map_append, List.map_cons,
            List.map_nil, List.count_append, List.count_cons, List.count_nil] at hs hc ⊢
          omega
        · intro hr
          have := hrc (hret hr).1 _ (List.getElem?_mem hw)
          exact absurd this (by simp)
      · simp at h
    · simp at h
  | exit i =>
    simp only [step] at h
    split at h
    · next hw =>
      split at h
      · next hj =>
        simp only [Option.some.injEq] at h
        subst h
        refine ⟨fun a => ?_, by simpa using hn, hct, fun _ => hj, ?_, hret⟩
        · have hs := sum_map_set (fun w => w.held.count a) s.workers i _
            WorkerState.exited hw
          have hc := hcount a
          simp only [poolCount, heldCount, WorkerState.held, List.count_nil] at hs hc ⊢
          omega
        · intro hr x hx
          rcases List.mem_or_eq_of_mem_set hx with hx | hx
          · exact hrc hr x hx
          · exact hx
      · simp at h
    · simp at h
  | closeResults =>
    simp only [step] at h
    split at h
    · next hc =>
      simp only [Option.some.injEq] at h
      subst h
      refine ⟨hcount, hn, hct, hec, fun _ => hc.1, ?_⟩
      intro hr
      exact ⟨rfl, (hret hr).2⟩
    · simp at h
  | collect =>
    simp only [step] at h
    split at h
    · next r rest hch =>
      simp only [Option.some.injEq] at h
      subst h
      refine ⟨fun a => ?_, hn, hct, hec, hrc, ?_⟩
      · have hc := hcount a
        simp only [poolCount, hch, List.map_append, List.map_cons, List.map_nil,
          List.count_append, List.count_cons, List.count_nil] at hc ⊢
        omega
      · intro hr
        have := (hret hr).2
        rw [hch] at this
        exact absurd this (by simp)
    · simp at h
  | finish =>
    simp only [step] at h
    split at h
    · next hc =>
      simp only [Option.some.injEq] at h
      subst h
      exact ⟨hcount, hn, hct, hec, hrc, fun _ => ⟨hc.2.1, hc.1⟩⟩
    · simp at h

/-! ## The worker pool: termination and progress -/

theorem step_measure (cfg : Config) (htmlDir shotDir : Str) (s s' : PoolState) (a : Action)
    (h : step cfg htmlDir shotDir s a = some s') : poolMeasure s' < poolMeasure s := by
  cases a with
  | dispatch i =>
    simp only [step] at h
    split at h
    · next t rest htodo hw =>
      simp only [Option.some.injEq] at h
      subst h
      have hs := sum_map_set WorkerState.weight s.workers i _ (WorkerState.working t) hw
      simp only [poolMeasure, htodo, List.length_cons, WorkerState.weight] at hs ⊢
      omega
    · simp at h
  | closeJobs =>
    simp only [step] at h
    split at h
    · next hc =>
      simp only [Option.some.injEq] at h
      subst h
      simp only [poolMeasure, hc.2]
      simp
    · simp at h
  | work i env =>
    simp only [step] at h
    split at h
    · next url hw =>
      simp only [Option.some.injEq] at h
      subst h
      have hs := sum_map_set WorkerState.weight s.workers i _
        (WorkerState.sending (workerIteration cfg htmlDir shotDir env url)) hw
      simp only [poolMeasure, WorkerState.weight] at hs ⊢
      omega
    · simp at h
  | send i =>
    simp only [step] at h
    split at h
    · next res hw =>
      split at h
      · simp only [Option.some.injEq] at h
        subst h
        have hs := sum_map_set WorkerState.weight s.workers i _ WorkerState.waiting hw
        simp only [poolMeasure, WorkerState.weight, List.length_append, List.length_cons,
          List.length_nil] at hs ⊢
        omega
      · simp at h
    · simp at h
  | exit i =>
    simp only [step] at h
    split at h
    · next hw =>
      split at h
      · simp only [Option.some.injEq] at h
        subst h
        have hs := sum_map_set WorkerState.weight s.workers i _ WorkerState.exited hw
        simp only [poolMeasure, WorkerState.weight] at hs ⊢
        omega
      · simp at h
    · simp at h
  | closeResults =>
    simp only [step] at h
    split at h
    · next hc =>
      simp only [Option.some.injEq] at h
      subst h
      simp only [poolMeasure, hc.2]
      simp
    · simp at h
  | collect =>
    simp only [step] at h
    split at h
    · next r rest hch =>
      simp only [Option.some.injEq] at h
      subst h
      simp only [poolMeasure, hch, List.length_cons]
      omega
    · simp at h
  | finish =>
    simp only [step] at h
    split at h
    · next hc =>
      simp only [Option.some.injEq] at h
      subst h
      simp only [poolMeasure, hc.2.2]
      simp
    · simp at h

theorem step_progress (cfg : Config) (htmlDir shotDir : Str) (targets : List Str)
    (s : PoolState) (hN : 1 ≤ cfg.Workers) (hinv : PoolInv cfg targets s)
    (hr : s.returned = false) : ∃ a s', step cfg htmlDir shotDir s a = some s' := by
  obtain ⟨_, hn, _, hec, _, _⟩ := hinv
  cases hch : s.resultsCh with
  | cons r rest => exact ⟨Action.collect, _, by simp only [step, hch]; rfl⟩
  | nil =>
    by_cases hwork : ∃ url, WorkerState.working url ∈ s.workers
    · obtain ⟨url, hm⟩ := hwork
      obtain ⟨i, hi⟩ := List.mem_iff_getElem?.mp hm
      exact ⟨Action.work i idleEnv, _, by simp only [step, hi]; rfl⟩
    by_cases hsend : ∃ res, WorkerState.sending res ∈ s.workers
    · obtain ⟨res, hm⟩ := hsend
      obtain ⟨i, hi⟩ := List.mem_iff_getElem?.mp hm
      have hlt : s.resultsCh.length < cfg.Workers := by rw [hch]; exact hN
      exact ⟨Action.send i, _, by simp only [step, hi, if_pos hlt]; rfl⟩
    have hrest : ∀ w ∈ s.workers, w = WorkerState.waiting ∨ w = WorkerState.exited := by
      intro w hw
      cases w with
      | waiting => exact Or.inl rfl
      | exited => exact Or.inr rfl
      | working url => exact absurd ⟨url, hw⟩ hwork
      | sending res => exact absurd ⟨res, hw⟩ hsend
    by_cases hwait : WorkerState.waiting ∈ s.workers
    · obtain ⟨i, hi⟩ := List.mem_iff_getElem?.mp hwait
      cases hj : s.jobsClosed with
      | true => exact ⟨Action.exit i, _, by simp only [step, hi, hj, if_true]; rfl⟩
      | false =>
        cases htodo : s.todo with
        | cons t rest => exact ⟨Action.dispatch i, _, by simp only [step, htodo, hi]; rfl⟩
        | nil =>
          exact ⟨Action.closeJobs, _, by
            simp only [step]
            rw [if_pos ⟨htodo, hj⟩]⟩
    · have hall : ∀ w ∈ s.workers, w = WorkerState.exited := by
        intro w hw
        rcases hrest w hw with h | h
        · rw [h] at hw; exact absurd hw hwait
        · exact h
      cases hc : s.resultsClosed with
      | false =>
        exact ⟨Action.closeResults, _, by
          simp only [step]
          rw [if_pos ⟨hall, hc⟩]⟩
      | true =>
        exact ⟨Action.finish, _, by
          simp only [step]
          rw [if_pos ⟨hch, hc, hr⟩]⟩

theorem runSchedule_append (cfg : Config) (htmlDir shotDir : Str) (s : PoolState)
    (as bs : List Action) :
    runSchedule cfg htmlDir shotDir s (as ++ bs) =
      (runSchedule cfg htmlDir shotDir s as).bind
        (fun s' => runSchedule cfg htmlDir shotDir s' bs) := by
  induction as generalizing s with
  | nil => rfl
  | cons a as ih =>
    simp only [List.cons_append, runSchedule]
    cases step cfg htmlDir shotDir s a with
    | none => rfl
    | some s' => exact ih s'

theorem runSchedule_inv (cfg : Config) (htmlDir shotDir : Str) (targets : List Str)
    (s s' : PoolState) (as : List Action) (hinv : PoolInv cfg targets s)
    (h : runSchedule cfg htmlDir shotDir s as = some s') : PoolInv cfg targets s' := by
  induction as generalizing s with
  | nil =>
    simp only [runSchedule, Option.some.injEq] at h
    rw [← h]; exact hinv
  | cons a as ih =>
    simp only [runSchedule] at h
    cases hs : step cfg htmlDir shotDir s a with
    | none => rw [hs] at h; simp at h
    | some s1 =>
      rw [hs] at h
      exact ih s1 (step_inv cfg htmlDir shotDir targets s s1 a hinv hs) h

theorem runSchedule_measure (cfg : Config) (htmlDir shotDir : Str) (s s' : PoolState)
    (as : List Action) (h : runSchedule cfg htmlDir shotDir s as = some s') :
    as.length + poolMeasure s' ≤ poolMeasure s := by
  induction as generalizing s with
  | nil =>
    simp only [runSchedule, Option.some.injEq] at h
    rw [← h]; simp
  | cons a as ih =>
    simp only [runSchedule] at h
    cases hs : step cfg htmlDir shotDir s a with
    | none => rw [hs] at h; simp at h
    | some s1 =>
      rw [hs] at h
      have h1 := ih s1 h
      have h2 := step_measure cfg htmlDir shotDir s s1 a hs
      simp only [List.length_cons]
      omega

theorem runSchedule_finish (cfg : Config) (htmlDir shotDir : Str) (targets : List Str)
    (hN : 1 ≤ cfg.Workers) (n : Nat) :
    ∀ s, poolMeasure s ≤ n → PoolInv cfg targets s →
      ∃ more s', runSchedule cfg htmlDir shotDir s more = some s' ∧ s'.returned = true := by
  induction n with
  | zero =>
    intro s hm hinv
    cases hr : s.returned with
    | true => exact ⟨[], s, rfl, hr⟩
    | false =>
      have : 1 ≤ poolMeasure s := by
        unfold poolMeasure
        rw [hr]
        simp
      omega
  | succ n ih =>
    intro s hm hinv
    cases hr : s.returned with
    | true => exact ⟨[], s, rfl, hr⟩
    | false =>
      obtain ⟨a, s1, hs⟩ := step_progress cfg htmlDir shotDir targets s hN hinv hr
      have hlt := step_measure cfg htmlDir shotDir s s1 a hs
      obtain ⟨more, s', hrun, hret⟩ :=
        ih s1 (by omega) (step_inv cfg htmlDir shotDir targets s s1 a hinv hs)
      exact ⟨a :: more, s', by simp only [runSchedule, hs]; exact hrun, hret⟩

theorem returned_results (cfg : Config) (targets : List Str) (s : PoolState)
    (hN : 1 ≤ cfg.Workers) (hinv : PoolInv cfg targets s) (hr : s.returned = true) :
    (s.results.map ScanResult.URL).Perm targets := by
  obtain ⟨hcount, hn, hct, hec, hrc, hret⟩ := hinv
  obtain ⟨hclosed, hch⟩ := hret hr
  have hall := hrc hclosed
  have hne : s.workers ≠ [] := by
    intro h0
    rw [h0] at hn
    simp at hn
    omega
  obtain ⟨w, hw⟩ := List.exists_mem_of_ne_nil _ hne
  have hex : WorkerState.exited ∈ s.workers := by
    have := hall w hw
    rwa [this] at hw
  have htodo := hct (hec hex)
  have key : ∀ a, (s.results.map ScanResult.URL).count a = targets.count a := by
    intro a
    have hheld : heldCount a s.workers = 0 := by
      unfold heldCount
      apply List.sum_eq_zero
      intro x hx
      obtain ⟨w0, hw0, rfl⟩ := List.mem_map.mp hx
      rw [hall w0 hw0]
      rfl
    have hc := hcount a
    simp only [poolCount, htodo, hch, hheld, List.map_nil, List.count_nil] at hc
    omega
  rw [List.perm_iff_count]
  intro a
  convert key a

theorem initState_measure (cfg : Config) (targets : List Str) :
    poolMeasure (initState cfg targets) = 5 * targets.length + cfg.Workers + 3 := by
  have hsum : ∀ n : Nat,
      ((List.replicate n WorkerState.waiting).map WorkerState.weight).sum = n := by
    intro n
    induction n with
    | zero => rfl
    | succ n ih =>
      rw [List.replicate_succ, List.map_cons, List.sum_cons, ih]
      simp only [WorkerState.weight]
      omega
  simp only [poolMeasure, initState, hsum]
  simp

theorem returned_terminal (cfg : Config) (htmlDir shotDir : Str) (targets : List Str)
    (s : PoolState) (hN : 1 ≤ cfg.Workers) (hinv : PoolInv cfg targets s)
    (hr : s.returned = true) (a : Action) : step cfg htmlDir shotDir s a = none := by
  cases hs : step cfg htmlDir shotDir s a with
  | none => rfl
  | some s1 =>
    exfalso
    have hlt := step_measure cfg htmlDir shotDir s s1 a hs
    obtain ⟨_, hn, hct, hec, hrc, hret⟩ := hinv
    obtain ⟨hclosed, hch⟩ := hret hr
    have hall := hrc hclosed
    have hne : s.workers ≠ [] := by
      intro h0
      rw [h0] at hn
      simp at hn
      omega
    obtain ⟨w, hw⟩ := List.exists_mem_of_ne_nil _ hne
    have hex : WorkerState.exited ∈ s.workers := by
      have := hall w hw
      rwa [this] at hw
    have hj := hec hex
    have htodo := hct hj
    have hsum : (s.workers.map WorkerState.weight).sum = 0 := by
      apply List.sum_eq_zero
      intro x hx
      obtain ⟨w0, hw0, rfl⟩ := List.mem_map.mp hx
      rw [hall w0 hw0]
      rfl
    have : poolMeasure s = 0 := by
      simp only [poolMeasure, htodo, hsum, hch, hj, hclosed, hr]
      simp
    omega

/-- C1: with at least one worker, whatever the schedule of the goroutines, the
slice `runScanPool` returns has one `ScanResult` per target: it is as long as
the target list and its `URL` fields are a permutation of the targets.  And
`runScanPool` does return: every schedule that can run can be carried on to
one after which the function has returned, no schedule runs more than
`5 * len(targets) + cfg.Workers + 3` steps, and no step follows the return. -/
theorem runScanPool_one_result_per_target (cfg : Config) (htmlDir shotDir : Str)
    (targets : List Str) (hN : 1 ≤ cfg.Workers) :
    (∀ schedule results, runScanPool cfg htmlDir shotDir targets schedule = some results →
        results.length = targets.length ∧ (results.map ScanResult.URL).Perm targets) ∧
      (∀ schedule s,
        runSchedule cfg htmlDir shotDir (initState cfg targets) schedule = some s →
          ∃ more results,
            runScanPool cfg htmlDir shotDir targets (schedule ++ more) = some results) ∧
      (∀ schedule s,
        runSchedule cfg htmlDir shotDir (initState cfg targets) schedule = some s →
          schedule.length ≤ 5 * targets.length + cfg.Workers + 3) ∧
      (∀ schedule s,
        runSchedule cfg htmlDir shotDir (initState cfg targets) schedule = some s →
          s.returned = true → ∀ a, step cfg htmlDir shotDir s a = none) := by
  refine ⟨?_, ?_, ?_, ?_⟩
  · intro schedule results h
    unfold runScanPool at h
    cases hrun : runSchedule cfg htmlDir shotDir (initState cfg targets) schedule with
    | none => rw [hrun] at h; simp at h
    | some s =>
      rw [hrun] at h
      simp only at h
      cases hr : s.returned with
      | false => rw [hr] at h; simp at h
      | true =>
        rw [hr] at h
        simp only [if_true, Option.some.injEq] at h
        have hinv := runSchedule_inv cfg htmlDir shotDir targets _ s schedule
          (initState_inv cfg targets) hrun
        have hperm := returned_results cfg targets s hN hinv hr
        rw [h] at hperm
        refine ⟨?_, hperm⟩
        have := hperm.length_eq
        rwa [List.length_map] at this
  · intro schedule s hrun
    have hinv := runSchedule_inv cfg htmlDir shotDir targets _ s schedule
      (initState_inv cfg targets) hrun
    obtain ⟨more, s', hmore, hret⟩ :=
      runSchedule_finish cfg htmlDir shotDir targets hN (poolMeasure s) s (Nat.le_refl _) hinv
    refine ⟨more, s'.results, ?_⟩
    unfold runScanPool
    rw [runSchedule_append, hrun]
    simp only [Option.bind]
    rw [hmore]
    simp [hret]
  · intro schedule s hrun
    have h1 := runSchedule_measure cfg htmlDir shotDir _ s schedule hrun
    rw [initState_measure] at h1
    omega
  · intro schedule s hrun hr a
    have hinv := runSchedule_inv cfg htmlDir shotDir targets _ s schedule
      (initState_inv cfg targets) hrun
    exact returned_terminal cfg htmlDir shotDir targets s hN hinv hr a

/-- Without a worker the conclusion of C1 fails: `resultsCh` is closed at once
and `runScanPool` returns no result, the dispatcher staying blocked. -/
theorem runScanPool_no_worker :
    runScanPool ⟨0, true⟩ (lit "out/html") (lit "out/screenshots") [lit "a.onion"]
      [Action.closeResults, Action.finish] = some [] := by
  decide

/-- C1 at two workers and the targets `a.onion`, `b.onion` under
`twoWorkerSchedule`: `runScanPool` returns the result of `b.onion`, then that
of `a.onion`; two results, whose `URL` fields are a permutation of the
targets. -/
theorem runScanPool_one_result_per_target_witness :
    runScanPool ⟨2, true⟩ (lit "out/html") (lit "out/screenshots")
        [lit "a.onion", lit "b.onion"] twoWorkerSchedule
      = some
        [workerIteration ⟨2, true⟩ (lit "out/html") (lit "out/screenshots") env404
            (lit "b.onion"),
          workerIteration ⟨2, true⟩ (lit "out/html") (lit "out/screenshots") env200
            (lit "a.onion")] ∧
      ([workerIteration ⟨2, true⟩ (lit "out/html") (lit "out/screenshots") env404
            (lit "b.onion"),
          workerIteration ⟨2, true⟩ (lit "out/html") (lit "out/screenshots") env200
            (lit "a.onion")].map ScanResult.URL).Perm [lit "a.onion", lit "b.onion"] :=
  ⟨by decide,
    ((runScanPool_one_result_per_target ⟨2, true⟩ (lit "out/html") (lit "out/screenshots")
      [lit "a.onion", lit "b.onion"] (by decide)).1 twoWorkerSchedule _ (by decide)).2⟩

end TorScraper
